import Mathlib

/-!
# Verification of the diff-aware context extractor of `pr-intent-checker`

This file gives a shallow embedding of the core of the repository:

* the two unified-diff parsers, `parse_diff` (src/ast_analyzer.py) and
  `parse_diff_hunks` (src/github_api.py);
* the change localizers `_find_relevant_nodes` (ast_analyzer.py) and the
  changed-block collection inside `get_contextual_code` (github_api.py);
* the call resolver / context assembler of `get_contextual_code`
  (github_api.py) and `_extract_node_context` (ast_analyzer.py);
* the AST visitor `CodeAnalyzer` (ast_analyzer.py).

Python conventions are modelled explicitly:

* a Python `dict` is a `List (key × value)` updated by `dinsert`, which
  keeps the position of an existing key (Python dicts preserve the
  insertion order of the first insertion and update in place);
* a Python `set` of recorded values is a `List` grown by `addIfAbsent`;
  only membership and (for sets that get `sorted(...)`) the sorted order
  are ever observed by the code;
* a Python exception (`KeyError` on a dict subscript, `UnboundLocalError`
  on a read of a never-assigned local) is `none` in an `Option` result;
* strings are Lean `String`s, with character-level work done on `.data`.
-/

/-! ## Generic helpers: Python dicts, sets, strings -/

/-- Python dict update `d[k] = v`: replaces the value at an existing key
in place, otherwise appends the new binding at the end. -/
def dinsert {β : Type} (k : String) (v : β) : List (String × β) → List (String × β)
  | [] => [(k, v)]
  | (k', v') :: t => if k = k' then (k, v) :: t else (k', v') :: dinsert k v t

/-- Python dict read `d[k]` / `k in d`. -/
def dlookup {β : Type} (k : String) : List (String × β) → Option β
  | [] => none
  | (k', v') :: t => if k = k' then some v' else dlookup k t

/-- Keys of a modelled dict, in iteration order. -/
def dkeys {β : Type} (d : List (String × β)) : List String := d.map Prod.fst

/-- Python `set.add` on a set modelled as a duplicate-free list. -/
def addIfAbsent (n : Nat) (s : List Nat) : List Nat :=
  if n ∈ s then s else s ++ [n]

/-- Python `set.add` for string sets. -/
def addStrIfAbsent (x : String) (s : List String) : List String :=
  if x ∈ s then s else s ++ [x]

/-- `needle` occurs as a contiguous sublist of `hay` (Python `needle in hay`
for strings, at the character level). -/
def listContains (hay needle : List Char) : Bool :=
  match hay with
  | [] => needle.isEmpty
  | _ :: t => needle.isPrefixOf hay || listContains t needle

/-- Python substring test `needle in hay`. -/
def strContains (hay needle : String) : Bool :=
  listContains hay.data needle.data

/-- Python `hay.startswith(pre)`. -/
def strStarts (hay pre : String) : Bool :=
  pre.data.isPrefixOf hay.data

/-- Python `hay.endswith(suf)`. -/
def strEnds (hay suf : String) : Bool :=
  suf.data.reverse.isPrefixOf hay.data.reverse

/-- Python string comparison `a <= b` (lexicographic on code points). -/
def leStr (a b : String) : Bool :=
  let rec go : List Char → List Char → Bool
    | [], _ => true
    | _ :: _, [] => false
    | x :: xs, y :: ys =>
      if x.val < y.val then true
      else if y.val < x.val then false
      else go xs ys
  go a.data b.data

/-- Python `sorted(...)` on strings (insertion sort with `leStr`). -/
def sortStrs (l : List String) : List String :=
  List.insertionSort (fun a b => leStr a b = true) l

/-- Keep the first occurrence of each element (`set(...)` collapsing,
followed by a deterministic order chosen by `sortStrs` at use sites). -/
def dedupAux (seen : List String) : List String → List String
  | [] => []
  | x :: t => if x ∈ seen then dedupAux seen t else x :: dedupAux (x :: seen) t

def dedupStrs : List String → List String := dedupAux []

/-- Python whitespace for `str.strip()`. -/
def isPyWS (c : Char) : Bool :=
  c = ' ' || c = '\t' || c = '\n' || c = '\r' || c = '\x0b' || c = '\x0c'

/-- Python `s.strip()`. -/
def strip (s : String) : String :=
  ⟨((s.data.dropWhile isPyWS).reverse.dropWhile isPyWS).reverse⟩

/-- Python `s[n:]` (drop the first `n` characters). -/
def strDrop (s : String) (n : Nat) : String := ⟨s.data.drop n⟩

/-- `call.split('.')`: the chunks of a dotted name. -/
def splitDot (s : String) : List String :=
  let rec go (cur : List Char) : List Char → List String
    | [] => [⟨cur.reverse⟩]
    | c :: t => if c = '.' then ⟨cur.reverse⟩ :: go [] t else go (c :: cur) t
  go [] s.data

/-- `call.split('.')[0]`. -/
def firstSeg (s : String) : String := (splitDot s).headD ""

/-- `call.split('.')[-1]`. -/
def lastSeg (s : String) : String := (splitDot s).getLastD ""

/-! ## The hunk-header and file-header matchers

`parse_diff` (ast_analyzer.py) uses
`re.compile(r"^\+\+\+ b/(.*)")` and
`re.compile(r"^@@ -\d+(?:,\d+)? \+(\d+)(?:,\d+)? @@")`;
`parse_diff_hunks` (github_api.py) uses `line.startswith("+++ b/")` and
`re.compile(r"^@@ -\d+(?:,\d+)? \+(\d+)(?:,(\d+)?)? @@")` (whose second
capture group is never read by live code: `count` only feeds the unused
`target_lines`).  The regexes are deterministic on every input — after a
maximal `\d+` the following literal (`,`, ` `, `@`) can never match a
digit, so greedy matching with no backtracking decides them — and are
transcribed as character-list parsers. -/

/-- Greedily consume `\d+`; `none` when no digit is present. -/
def eatDigits : List Char → Option (Nat × List Char)
  | l =>
    let ds := l.takeWhile Char.isDigit
    if ds.isEmpty then none
    else some (ds.foldl (fun a c => a * 10 + (c.toNat - 48)) 0, l.dropWhile Char.isDigit)

/-- Consume an optional `(?:,\d+)?` group. -/
def eatOptCommaDigits (l : List Char) : List Char :=
  match l with
  | ',' :: t =>
    match eatDigits t with
    | some (_, rest) => rest
    | none => l
  | _ => l

/-- Consume an optional `(?:,(\d+)?)?` group (a bare comma is allowed). -/
def eatOptCommaOptDigits (l : List Char) : List Char :=
  match l with
  | ',' :: t => t.dropWhile Char.isDigit
  | _ => l

/-- Consume an expected literal. -/
def eatLit : List Char → List Char → Option (List Char)
  | [], l => some l
  | c :: cs, x :: xs => if c = x then eatLit cs xs else none
  | _ :: _, [] => none

/-- `re.match` of `^@@ -\d+(?:,\d+)? \+(\d+)(?:,\d+)? @@` on a line,
returning the `new_start` capture (ast_analyzer.py's hunk regex). -/
def hunkMatchA (line : String) : Option Nat := do
  let r1 ← eatLit "@@ -".data line.data
  let (_, r2) ← eatDigits r1
  let r3 := eatOptCommaDigits r2
  let r4 ← eatLit " +".data r3
  let (n, r5) ← eatDigits r4
  let r6 := eatOptCommaDigits r5
  let _ ← eatLit " @@".data r6
  pure n

/-- `re.match` of `^@@ -\d+(?:,\d+)? \+(\d+)(?:,(\d+)?)? @@`, returning the
`new_start` capture (github_api.py's hunk regex; the count capture is dead). -/
def hunkMatchB (line : String) : Option Nat := do
  let r1 ← eatLit "@@ -".data line.data
  let (_, r2) ← eatDigits r1
  let r3 := eatOptCommaDigits r2
  let r4 ← eatLit " +".data r3
  let (n, r5) ← eatDigits r4
  let r6 := eatOptCommaOptDigits r5
  let _ ← eatLit " @@".data r6
  pure n

/-- `re.match` of `^\+\+\+ b/(.*)`: the captured path. -/
def filePathMatch (line : String) : Option String :=
  if strStarts line "+++ b/" then some (strDrop line 6) else none

/-! ## `parse_diff` (src/ast_analyzer.py, lines 93–131)

State: `changed_lines` dict, `current_file`, `new_file_line_num` (starts
at `0`).  The input is the `splitlines()` of the diff text; the
`if not diff: return {}` guard coincides with folding over the empty line
list.  The only fallible operation is the dict subscript
`changed_lines[current_file]`, modelled with `Option`. -/

structure PDState where
  changed : List (String × List Nat)
  currentFile : Option String
  counter : Nat
deriving DecidableEq, Repr

def pdInit : PDState := ⟨[], none, 0⟩

/-- One iteration of `parse_diff`'s line loop. -/
def parseDiffLine (st : PDState) (line : String) : Option PDState :=
  match filePathMatch line with
  | some path =>
    if strEnds path ".py" then
      some { st with
        currentFile := some path
        changed := if (dlookup path st.changed).isSome then st.changed
                   else st.changed ++ [(path, [])] }
    else
      some { st with currentFile := none }
  | none =>
    match st.currentFile with
    | none => some st
    | some f =>
      match hunkMatchA line with
      | some newStart => some { st with counter := newStart }
      | none =>
        if strStarts line "+" then
          match dlookup f st.changed with
          | none => none
          | some s => some { st with
              changed := dinsert f (addIfAbsent st.counter s) st.changed
              counter := st.counter + 1 }
        else if ¬ strStarts line "-" ∧ ¬ strStarts line "\\" then
          some { st with counter := st.counter + 1 }
        else
          some st

def parseDiffAux (st : PDState) : List String → Option PDState
  | [] => some st
  | l :: t => do parseDiffAux (← parseDiffLine st l) t

/-- `parse_diff(diff)` on the line list of the diff text. -/
def parseDiff (lines : List String) : Option (List (String × List Nat)) :=
  (parseDiffAux pdInit lines).map PDState.changed

/-! ## `parse_diff_hunks` (src/github_api.py, lines 184–222)

`current_line_in_hunk` and `line_index_in_hunk` are function locals first
assigned inside the matched-hunk branch; reading either before that raises
`UnboundLocalError`, modelled as `none`.  The write-only bookkeeping
(`target_lines`, the value of `count`) is kept only as far as it affects
regex acceptance.  The final comprehension drops files whose line set is
empty. -/

structure PHState where
  changed : List (String × List Nat)
  currentFilename : Option String
  curLine : Option Nat
  lineIdx : Option Nat
deriving DecidableEq, Repr

def phInit : PHState := ⟨[], none, none, none⟩

/-- One iteration of `parse_diff_hunks`'s line loop. -/
def parseDiffHunksLine (st : PHState) (line : String) : Option PHState :=
  if strStarts line "+++ b/" then
    let fn := strip (strDrop line 6)
    some { st with
      currentFilename := some fn
      changed := if (dlookup fn st.changed).isSome then st.changed
                 else st.changed ++ [(fn, [])] }
  else if strStarts line "@@" ∧ st.currentFilename.isSome then
    match hunkMatchB line with
    | some startLine => some { st with curLine := some startLine, lineIdx := some 0 }
    | none => some st
  else if strStarts line "+" ∧ ¬ strStarts line "+++" ∧ st.currentFilename.isSome then
    match st.currentFilename with
    | none => none
    | some f =>
      match dlookup f st.changed, st.curLine, st.lineIdx with
      | some s, some n, some i =>
        some { st with
          changed := dinsert f (addIfAbsent n s) st.changed
          curLine := some (n + 1)
          lineIdx := some (i + 1) }
      | _, _, _ => none
  else if strStarts line "-" ∧ ¬ strStarts line "---" then
    match st.lineIdx with
    | some i => some { st with lineIdx := some (i + 1) }
    | none => none
  else if ¬ strStarts line "@@" ∧ st.currentFilename.isSome then
    match st.curLine, st.lineIdx with
    | some n, some i => some { st with curLine := some (n + 1), lineIdx := some (i + 1) }
    | _, _ => none
  else
    some st

def parseDiffHunksAux (st : PHState) : List String → Option PHState
  | [] => some st
  | l :: t => do parseDiffHunksAux (← parseDiffHunksLine st l) t

/-- `parse_diff_hunks(diff_text)` on the line list of the diff text. -/
def parseDiffHunks (lines : List String) : Option (List (String × List Nat)) :=
  (parseDiffHunksAux phInit lines).map
    (fun st => st.changed.filter (fun p => ¬ p.2.isEmpty))

/-! ## `AstParser` data (src/github_api.py, lines 62–181)

`FunctionInfo` / `ClassInfo` as populated by `AstParser`: name, 1-based
inclusive line range, the call names walked from the body, the extracted
signature text and the re-serialized body text.  The claims under
verification quantify over analyzer states, so the fields hold the values
the Python visitor would have computed. -/

structure FuncInfo where
  name : String
  startLine : Nat
  endLine : Nat
  calls : List String
  signature : String
  bodySource : String
deriving DecidableEq, Repr

structure ClassInfo where
  name : String
  startLine : Nat
  endLine : Nat
  methods : List (String × FuncInfo)
deriving DecidableEq, Repr

structure AstParserState where
  functions : List (String × FuncInfo)
  classes : List (String × ClassInfo)
  imports : List String
deriving DecidableEq, Repr

/-- `changed_lines.intersection(range(start_line, end_line + 1))` is
non-empty. -/
def hitRange (cl : List Nat) (s e : Nat) : Bool :=
  cl.any (fun l => s ≤ l && l ≤ e)

/-! ## Change localizer of `get_contextual_code` (github_api.py, lines 546–558)

`changed_blocks_in_file`: standalone functions first (tag `"Function"`,
no owning class), then every method of every class (tag `"Method"` with
its class name), each kept iff its line range meets a changed line. -/

def changedBlocks (cl : List Nat) (p : AstParserState) :
    List (String × FuncInfo × Option String) :=
  (p.functions.filterMap fun fe =>
    if hitRange cl fe.2.startLine fe.2.endLine
    then some ("Function", fe.2, none) else none)
  ++ p.classes.flatMap (fun ce =>
      ce.2.methods.filterMap fun me =>
        if hitRange cl me.2.startLine me.2.endLine
        then some ("Method", me.2, some ce.1) else none)

/-! ## Call resolver of `get_contextual_code` (github_api.py, lines 577–611) -/

/-- Identity of a locally resolved call target: a standalone function, or
a `(class, method)` pair. -/
inductive LTarget where
  | fn (name : String)
  | mth (className methodName : String)
deriving DecidableEq, Repr

/-- The class scan of lines 588–596: first class whose methods contain the
call's last dotted segment and which is not the current block itself; a
self match does not set `found_local` and the scan continues (the `break`
sits inside the non-self branch). -/
def findMethSig (potential : String) (parentClass : Option String)
    (blockName : String) : List (String × ClassInfo) → Option (LTarget × String)
  | [] => none
  | (cn, ci) :: rest =>
    match dlookup potential ci.methods with
    | some mi =>
      if ¬ (parentClass = some cn ∧ potential = blockName)
      then some (.mth cn potential, mi.signature)
      else findMethSig potential parentClass blockName rest
    | none => findMethSig potential parentClass blockName rest

/-- Lines 577–596: local resolution of one call name.  `none` covers both
"no local match" and the guarded self matches, in which Python leaves
`found_local = False` and falls through to the import branch. -/
def resolveLocal (p : AstParserState) (blockName : String)
    (parentClass : Option String) (call : String) : Option (LTarget × String) :=
  match dlookup call p.functions with
  | some fi => if call ≠ blockName then some (.fn call, fi.signature) else none
  | none => findMethSig (lastSeg call) parentClass blockName p.classes

/-- The import test of line 607: raw-text substring checks. -/
def impMatches (base imp : String) : Bool :=
  strContains imp ("import " ++ base) || strContains imp ("from " ++ base ++ " import")
    || strContains imp ("as " ++ base)

/-- Lines 604–611: first import whose raw text matches the call's first
dotted segment and which was not already emitted for this file. -/
def findImport (imports processedImports : List String) (base : String) :
    Option String :=
  match imports with
  | [] => none
  | imp :: rest =>
    if impMatches base imp ∧ imp ∉ processedImports then some imp
    else findImport rest processedImports base

/-! ## Context assembler of `get_contextual_code` (github_api.py, lines 560–619)

The emitted pieces are kept structured; each constructor stands for the
exact strings the Python code appends:

* `fileHeader fn`   ↦ `"\n--- Context from File: {fn} ---"`;
* `blockHeader k d` ↦ `"\n--- Context for Changed {k} `{d}` ---"`;
* `fullDef src`     ↦ `"\nFull Definition:"` followed by `src`;
* `sigEntry c s`    ↦ `"\nSignature of Local Function/Method Called `{c}`:"`
  followed by `s`;
* `importsHeader`   ↦ `"\nRelevant Imports:"`;
* `importLine i`    ↦ the raw import text `i`. -/

inductive BPart where
  | fileHeader (filename : String)
  | blockHeader (kind display : String)
  | fullDef (src : String)
  | sigEntry (call sig : String)
  | importsHeader
  | importLine (imp : String)
deriving DecidableEq, Repr

/-- The per-file dedup state (`processed_signatures_for_file`,
`processed_imports_for_file`). -/
structure AsmAcc where
  processedSigs : List String
  processedImports : List String
deriving DecidableEq, Repr

/-- The call loop of one block (lines 577–611): returns the updated dedup
state, the `call_signatures` parts in emission order, and the
`relevant_imports` set in collection order (sorted at emission). -/
def processCalls (p : AstParserState) (blockName : String)
    (parentClass : Option String) (acc : AsmAcc) :
    List String → AsmAcc × List BPart × List String
  | [] => (acc, [], [])
  | call :: rest =>
    match resolveLocal p blockName parentClass call with
    | some ts =>
      if ts.2 ≠ "" ∧ call ∉ acc.processedSigs then
        let r := processCalls p blockName parentClass
          { acc with processedSigs := acc.processedSigs ++ [call] } rest
        (r.1, BPart.sigEntry call ts.2 :: r.2.1, r.2.2)
      else
        processCalls p blockName parentClass acc rest
    | none =>
      match findImport p.imports acc.processedImports (firstSeg call) with
      | some imp =>
        let r := processCalls p blockName parentClass
          { acc with processedImports := acc.processedImports ++ [imp] } rest
        (r.1, r.2.1, addStrIfAbsent imp r.2.2)
      | none => processCalls p blockName parentClass acc rest

/-- One changed block's section (lines 565–617). -/
def assembleBlock (p : AstParserState) (acc : AsmAcc)
    (blk : String × FuncInfo × Option String) : AsmAcc × List BPart :=
  let display := match blk.2.2 with
    | some c => c ++ "." ++ blk.2.1.name
    | none => blk.2.1.name
  let r := processCalls p blk.2.1.name blk.2.2 acc blk.2.1.calls
  (r.1,
    BPart.blockHeader blk.1 display :: BPart.fullDef blk.2.1.bodySource :: r.2.1
      ++ (if r.2.2.isEmpty then []
          else BPart.importsHeader :: (sortStrs r.2.2).map BPart.importLine))

def assembleBlocks (p : AstParserState) (acc : AsmAcc) :
    List (String × FuncInfo × Option String) → List BPart
  | [] => []
  | b :: rest =>
    (assembleBlock p acc b).2 ++ assembleBlocks p (assembleBlock p acc b).1 rest

/-- One file's section of the bundle, given its parsed analysis and its
changed-line set (the body of the per-file loop of `get_contextual_code`;
fetching, caching and the `.py` filter happen before this point and are
out of the modelled core). -/
def assembleFile (p : AstParserState) (filename : String) (cl : List Nat) :
    List BPart :=
  let blocks := changedBlocks cl p
  if blocks.isEmpty then []
  else BPart.fileHeader filename :: assembleBlocks p ⟨[], []⟩ blocks

/-- Call names of the signature entries emitted in a part list. -/
def sigCallNames (parts : List BPart) : List String :=
  parts.filterMap fun pt =>
    match pt with
    | .sigEntry c _ => some c
    | _ => none

/-- Signature texts of the signature entries emitted in a part list. -/
def sigTexts (parts : List BPart) : List String :=
  parts.filterMap fun pt =>
    match pt with
    | .sigEntry _ s => some s
    | _ => none

/-- Raw import texts emitted in a part list. -/
def importLines (parts : List BPart) : List String :=
  parts.filterMap fun pt =>
    match pt with
    | .importLine i => some i
    | _ => none

/-! ## `CodeAnalyzer` catalogs (src/ast_analyzer.py, lines 14–91, 134–138)

For the localizer and context extractor the analyzer's node references are
modelled by their observed attributes: the 1-based inclusive line range
(`_get_node_line_range`), `ast.unparse(node.args)` (note: unparsing a bare
`ast.arguments` object yields the parameter list without parentheses) and
`ast.unparse(node)`.  A class node's `body` is its list of direct
`ast.FunctionDef` children with their names, in order (the only part of
`node.body` the code reads, always behind an `isinstance` filter). -/

structure FNode where
  startLine : Nat
  endLine : Nat
  argsText : String
  unparsed : String
deriving DecidableEq, Repr

structure KNode where
  startLine : Nat
  endLine : Nat
  body : List (String × FNode)
  unparsed : String
deriving DecidableEq, Repr

/-- A relevant node is a module-level `ast.FunctionDef` or an
`ast.ClassDef` (the two kinds `_find_relevant_nodes` emits). -/
inductive ANode where
  | fn (f : FNode)
  | cls (k : KNode)
deriving DecidableEq, Repr

structure CodeAnalyzerSt where
  imports : List String
  function_defs : List (String × FNode)
  class_defs : List (String × KNode)
  function_calls : List (String × List String)
  method_calls : List (String × List (String × List String))
deriving DecidableEq, Repr

/-! ## `_find_relevant_nodes` (src/ast_analyzer.py, lines 164–195) -/

/-- The standalone-function pass (lines 170–175), threading
`relevant_nodes` and `processed_nodes`. -/
def relFunsAux (added : List Nat) (acc : List (String × ANode)) (ps : List String) :
    List (String × FNode) → List (String × ANode) × List String
  | [] => (acc, ps)
  | (n, f) :: t =>
    if hitRange added f.startLine f.endLine ∧ n ∉ ps then
      relFunsAux added (acc ++ [(n, ANode.fn f)]) (ps ++ [n]) t
    else
      relFunsAux added acc ps t

/-- The class pass (lines 178–192): skip names already processed; a class
counts as changed when its own range meets an added line, or otherwise
when some direct `FunctionDef` child's range does. -/
def relClsAux (added : List Nat) (acc : List (String × ANode)) (ps : List String) :
    List (String × KNode) → List (String × ANode) × List String
  | [] => (acc, ps)
  | (n, k) :: t =>
    if n ∈ ps then relClsAux added acc ps t
    else if hitRange added k.startLine k.endLine
        || k.body.any (fun m => hitRange added m.2.startLine m.2.endLine) then
      relClsAux added (acc ++ [(n, ANode.cls k)]) (ps ++ [n]) t
    else
      relClsAux added acc ps t

/-- `_find_relevant_nodes(analyzer, added_lines)`. -/
def findRelevantNodes (a : CodeAnalyzerSt) (added : List Nat) :
    List (String × ANode) :=
  let fp := relFunsAux added [] [] a.function_defs
  (relClsAux added fp.1 fp.2 a.class_defs).1

/-! ## `_extract_node_context` (src/ast_analyzer.py, lines 197–248) -/

/-- The import scan of lines 227–231: first import whose raw text contains
`import {base}`, `from {base}` or `.{base}` as a substring. -/
def importScanExtract (base : String) : List String → Option String
  | [] => none
  | imp :: rest =>
    if strContains imp ("import " ++ base) || strContains imp ("from " ++ base)
        || strContains imp ("." ++ base) then
      some imp
    else
      importScanExtract base rest

/-- Lines 237–245: first class whose per-method call dict has `call` as a
key (the `break` fires whether or not a method node is then found). -/
def methodCallsScan (call : String) :
    List (String × List (String × List String)) → Option String
  | [] => none
  | (cn, methods) :: rest =>
    if (dlookup call methods).isSome then some cn else methodCallsScan call rest

/-- The per-call context string of lines 222–246: default `{call}(...)`,
overridden by an import annotation, a local function signature, or a local
method signature — imports are consulted first. -/
def extractCallContext (a : CodeAnalyzerSt) (call : String) : String :=
  let base := firstSeg call
  match importScanExtract base a.imports with
  | some imp => call ++ "(...)" ++ " # Requires: " ++ imp
  | none =>
    match dlookup call a.function_defs with
    | some f => "def " ++ call ++ f.argsText ++ ": ..."
    | none =>
      match methodCallsScan call a.method_calls with
      | some cn =>
        match dlookup cn a.class_defs with
        | some k =>
          match k.body.find? (fun m => m.1 = call) with
          | some m => "def " ++ call ++ m.2.argsText ++ ": ... # Method in class " ++ cn
          | none => call ++ "(...)"
        | none => call ++ "(...)"
      | none => call ++ "(...)"

/-- `_extract_node_context(node_name, node, analyzer, file_path)`: the list
of appended context strings (`ast.unparse` successes assumed; the logged
fallback strings of the exception handlers are not modelled). -/
def extractNodeContext (nodeName : String) (node : ANode) (a : CodeAnalyzerSt)
    (filePath : String) : List String :=
  let nodeType := match node with
    | .fn _ => "Function"
    | .cls _ => "Class"
  let unp := match node with
    | .fn f => f.unparsed
    | .cls k => k.unparsed
  let callsMade := match node with
    | .fn _ => (dlookup nodeName a.function_calls).getD []
    | .cls _ => ((dlookup nodeName a.method_calls).getD []).flatMap Prod.snd
  ("--- Full Definition of Changed " ++ nodeType ++ " `" ++ nodeName
      ++ "` (in " ++ filePath ++ ") ---")
    :: unp
    :: (if callsMade.isEmpty then []
        else ("\n--- Calls made by `" ++ nodeName ++ "` (or its methods) ---")
          :: (sortStrs (dedupStrs callsMade)).map (extractCallContext a))

/-! ## The `CodeAnalyzer` visitor itself (src/ast_analyzer.py, lines 14–90)

A small statement universe suffices for the visiting structure: `def`,
`class`, import statements (carrying the text `visit_Import` /
`visit_ImportFrom` will append) and expression statements containing one
call (carrying the name `_get_call_name` renders).  Compound non-def
statements and multi-call expressions add nothing to the visiting logic.
`ast.walk` enumerates every descendant; only the multiset of call names is
used, so `walkCalls` may recurse depth-first.

The visitor: `visit_Import`/`visit_ImportFrom` append to `imports`;
`visit_ClassDef` registers the class, initializes its `method_calls` dict,
sets `_current_class_name`, recurses into the body via `generic_visit` and
then resets `_current_class_name` to `None` (not to the previous value);
`visit_FunctionDef` registers a method or function with the calls walked
from its body and does **not** recurse (`generic_visit` is never called on
it), so definitions nested in function bodies are never visited.
`_current_function_name` is set and reset but never read, and is omitted. -/

inductive PyStmt where
  | funcDef (name : String) (body : List PyStmt)
  | classDef (name : String) (body : List PyStmt)
  | imp (text : String)
  | exprCall (callName : String)

/-- All call names `ast.walk` finds anywhere below a statement list. -/
def walkCalls : List PyStmt → List String
  | [] => []
  | .funcDef _ b :: t => walkCalls b ++ walkCalls t
  | .classDef _ b :: t => walkCalls b ++ walkCalls t
  | .imp _ :: t => walkCalls t
  | .exprCall c :: t => c :: walkCalls t

structure CAState where
  imports : List String
  function_defs : List (String × PyStmt)
  class_defs : List (String × PyStmt)
  function_calls : List (String × List String)
  method_calls : List (String × List (String × List String))
  currentClass : Option String

def caInit : CAState := ⟨[], [], [], [], [], none⟩

/-- `CodeAnalyzer.visit` over a statement list (the module body or, after
`visit_ClassDef` sets `_current_class_name`, a class body). -/
def visitStmts (st : CAState) : List PyStmt → CAState
  | [] => st
  | s :: rest =>
    let st' := match s with
      | .imp t => { st with imports := st.imports ++ [t] }
      | .exprCall _ => st
      | .funcDef n b =>
        match st.currentClass with
        | some c =>
          let inner := (dlookup c st.method_calls).getD []
          { st with method_calls := dinsert c (dinsert n (walkCalls b) inner) st.method_calls }
        | none =>
          { st with
            function_defs := dinsert n (.funcDef n b) st.function_defs
            function_calls := dinsert n (walkCalls b) st.function_calls }
      | .classDef n b =>
        let st1 := { st with
          class_defs := dinsert n (.classDef n b) st.class_defs
          method_calls := dinsert n [] st.method_calls
          currentClass := some n }
        let st2 := visitStmts st1 b
        { st2 with currentClass := none }
    visitStmts st' rest

/-- `CodeAnalyzer().visit(ast.parse(source))` on a module body. -/
def analyzeModule (module : List PyStmt) : CAState :=
  visitStmts caInit module

/-- A statement occurs (at any nesting depth) in a statement list. -/
inductive StmtIn : PyStmt → List PyStmt → Prop where
  | here (s : PyStmt) (t : List PyStmt) : StmtIn s (s :: t)
  | there {s x t} : StmtIn s t → StmtIn s (x :: t)
  | inFunc {s n b t} : StmtIn s b → StmtIn s (.funcDef n b :: t)
  | inClass {s n b t} : StmtIn s b → StmtIn s (.classDef n b :: t)

/-! ## Statement-level helpers -/

/-- The single-hunk specialization of `parse_diff`'s bookkeeping: from a
counter value, the recorded line numbers of a hunk body and the final
counter value — an added line records the counter and increments it, a
context line increments it, a removed line (or a `\ No newline` marker)
leaves it unchanged.  The hunk theorem proves `parse_diff` realizes it. -/
def hunkRecs (c : Nat) : List String → List Nat × Nat
  | [] => ([], c)
  | l :: r =>
    if strStarts l "+" then
      let p := hunkRecs (c + 1) r
      (c :: p.1, p.2)
    else if ¬ strStarts l "-" ∧ ¬ strStarts l "\\" then hunkRecs (c + 1) r
    else hunkRecs c r

/-- The identity of the block currently being assembled, as a resolution
target. -/
def selfTarget (parentClass : Option String) (blockName : String) : LTarget :=
  match parentClass with
  | some c => .mth c blockName
  | none => .fn blockName

/-- Split on single spaces. -/
def splitWords (s : String) : List String :=
  let rec go (cur : List Char) : List Char → List String
    | [] => [⟨cur.reverse⟩]
    | c :: t => if c = ' ' then ⟨cur.reverse⟩ :: go [] t else go (c :: cur) t
  (go [] s.data).filter (fun w => w ≠ "")

/-- Drop the commas a word picked up from a comma-separated list. -/
def stripCommas (w : String) : String := ⟨w.data.filter (fun c => c ≠ ',')⟩

/-- Interpret an imported-names word list, honouring `x as y` aliases. -/
def collectBoundAux (acc : List String) : List String → List String
  | [] => acc.reverse
  | w :: rest =>
    if w = "as" then
      match rest, acc with
      | a :: r2, _ :: accT => collectBoundAux (stripCommas a :: accT) r2
      | a :: r2, [] => collectBoundAux [stripCommas a] r2
      | [], _ => acc.reverse
    else
      collectBoundAux (stripCommas w :: acc) rest

/-- Modelled from the spec (§3, ImportBinding): the set of identifiers
an import statement makes available at module scope — the module's
top-level name for whole-module imports, and the imported or aliased
names for `from` imports.  The source keeps only raw import strings and
never computes this set; the claim about import resolution is judged
against this definition. -/
def specBoundNames (imp : String) : List String :=
  match splitWords imp with
  | "import" :: rest => (collectBoundAux [] rest).map firstSeg
  | "from" :: _ :: "import" :: rest => collectBoundAux [] rest
  | _ => []

/-- Observational equality of two `CodeAnalyzer` states, up to the stored
node values: same imports, same recorded call lists, same current class,
and the same catalog keys in the same order. -/
def stEquiv (a b : CAState) : Prop :=
  a.imports = b.imports ∧ a.function_calls = b.function_calls ∧
  a.method_calls = b.method_calls ∧ a.currentClass = b.currentClass ∧
  dkeys a.function_defs = dkeys b.function_defs ∧
  dkeys a.class_defs = dkeys b.class_defs

/-! Sanity examples (spec §8 scenario and basic behaviour). -/

example : parseDiff ["+++ b/a.py", "@@ -1,3 +1,4 @@", " c1", " c2", " c3", "+new"]
    = some [("a.py", [4])] := by decide

example : parseDiffHunks ["+++ b/a.py", "@@ -1,3 +1,4 @@", " c1", " c2", " c3", "+new"]
    = some [("a.py", [4])] := by decide

example : parseDiff ["+++ b/a.txt", "@@ -1 +1 @@", "+x"] = some [] := by decide

example : parseDiffHunks ["+++ b/a.py", "+x"] = none := by decide

/-! ## Generic lemmas about the dict model -/

theorem someBindEq {α β : Type} (a : α) (f : α → Option β) : (some a >>= f) = f a := rfl


theorem dlookup_dinsert_self {β : Type} (k : String) (v : β) (m : List (String × β)) :
    dlookup k (dinsert k v m) = some v := by
  induction m with
  | nil => simp [dinsert, dlookup]
  | cons hd t ih =>
    obtain ⟨k', v'⟩ := hd
    by_cases hk : k = k'
    · simp [dinsert, hk, dlookup]
    · simp [dinsert, hk, dlookup, ih]

theorem dlookup_dinsert_ne {β : Type} {k k' : String} (h : k ≠ k') (v : β)
    (m : List (String × β)) : dlookup k (dinsert k' v m) = dlookup k m := by
  induction m with
  | nil => simp [dinsert, dlookup, h]
  | cons hd t ih =>
    obtain ⟨k'', v''⟩ := hd
    by_cases hk : k' = k''
    · subst hk; simp [dinsert, dlookup, h]
    · by_cases hkk : k = k''
      · simp [dinsert, hk, dlookup, hkk]
      · simp [dinsert, hk, dlookup, hkk, ih]

theorem dinsert_dinsert_same {β : Type} (k : String) (v w : β) (m : List (String × β)) :
    dinsert k v (dinsert k w m) = dinsert k v m := by
  induction m with
  | nil => simp [dinsert]
  | cons hd t ih =>
    obtain ⟨k', v'⟩ := hd
    by_cases hk : k = k'
    · simp [dinsert, hk]
    · simp [dinsert, hk, ih]

theorem dinsert_self_of_lookup {β : Type} {k : String} {v : β} {m : List (String × β)}
    (h : dlookup k m = some v) : dinsert k v m = m := by
  induction m with
  | nil => simp [dlookup] at h
  | cons hd t ih =>
    obtain ⟨k', v'⟩ := hd
    by_cases hk : k = k'
    · simp [dlookup, hk] at h
      simp [dinsert, hk, h]
    · simp [dlookup, hk] at h
      simp [dinsert, hk, ih h]

theorem dlookup_append {β : Type} (k : String) (m1 m2 : List (String × β)) :
    dlookup k (m1 ++ m2) = ((dlookup k m1).or (dlookup k m2)) := by
  induction m1 with
  | nil => simp [dlookup]
  | cons hd t ih =>
    obtain ⟨k', v'⟩ := hd
    by_cases hk : k = k'
    · simp [dlookup, hk]
    · simp [dlookup, hk, ih]

/-! ## C9: totality of `parse_diff`, non-totality of `parse_diff_hunks` -/

theorem parseDiffLine_some (st : PDState) (l : String)
    (h : ∀ f, st.currentFile = some f → (dlookup f st.changed).isSome) :
    ∃ st', parseDiffLine st l = some st' ∧
      (∀ f, st'.currentFile = some f → (dlookup f st'.changed).isSome) := by
  obtain ⟨chg, cf, cnt⟩ := st
  cases hfp : filePathMatch l with
  | some path =>
    by_cases hpy : strEnds path ".py" = true
    · by_cases hl : (dlookup path chg).isSome = true
      · refine ⟨⟨chg, some path, cnt⟩, ?_, ?_⟩
        · simp [parseDiffLine, hfp, hpy, hl]
        · intro f hf
          simp at hf ⊢
          subst hf
          exact hl
      · refine ⟨⟨chg ++ [(path, [])], some path, cnt⟩, ?_, ?_⟩
        · simp [parseDiffLine, hfp, hpy, hl]
        · intro f hf
          simp at hf ⊢
          subst hf
          rw [dlookup_append]
          cases hmm : dlookup path chg <;> simp [hmm, dlookup]
    · refine ⟨⟨chg, none, cnt⟩, ?_, ?_⟩
      · simp [parseDiffLine, hfp, hpy]
      · intro f hf
        simp at hf
  | none =>
    cases hcf : cf with
    | none =>
      refine ⟨⟨chg, none, cnt⟩, ?_, ?_⟩
      · simp [parseDiffLine, hfp]
      · intro f hf
        simp at hf
    | some f0 =>
      have h0 : (dlookup f0 chg).isSome = true := by
        have := h f0 (by simp [hcf])
        simpa using this
      cases hk : hunkMatchA l with
      | some c =>
        refine ⟨⟨chg, some f0, c⟩, ?_, ?_⟩
        · simp [parseDiffLine, hfp, hk]
        · intro f hf
          simp at hf ⊢
          subst hf
          exact h0
      | none =>
        by_cases hplus : strStarts l "+" = true
        · obtain ⟨s, hs⟩ := Option.isSome_iff_exists.mp h0
          refine ⟨⟨dinsert f0 (addIfAbsent cnt s) chg, some f0, cnt + 1⟩, ?_, ?_⟩
          · simp [parseDiffLine, hfp, hk, hplus, hs]
          · intro f hf
            simp at hf ⊢
            subst hf
            simp [dlookup_dinsert_self]
        · by_cases hminus : strStarts l "-" = true
          · refine ⟨⟨chg, some f0, cnt⟩, ?_, ?_⟩
            · simp [parseDiffLine, hfp, hk, hplus, hminus]
            · intro f hf
              simp at hf ⊢
              subst hf
              exact h0
          · by_cases hbs : strStarts l "\\" = true
            · refine ⟨⟨chg, some f0, cnt⟩, ?_, ?_⟩
              · simp [parseDiffLine, hfp, hk, hplus, hminus, hbs]
              · intro f hf
                simp at hf ⊢
                subst hf
                exact h0
            · refine ⟨⟨chg, some f0, cnt + 1⟩, ?_, ?_⟩
              · simp [parseDiffLine, hfp, hk, hplus, hminus, hbs]
              · intro f hf
                simp at hf ⊢
                subst hf
                exact h0

theorem parseDiffAux_some : ∀ (lines : List String) (st : PDState),
    (∀ f, st.currentFile = some f → (dlookup f st.changed).isSome) →
    (parseDiffAux st lines).isSome := by
  intro lines
  induction lines with
  | nil => intro st _; simp [parseDiffAux]
  | cons l t ih =>
    intro st h
    obtain ⟨st', h1, h2⟩ := parseDiffLine_some st l h
    simpa [parseDiffAux, h1] using ih st' h2

/-- C9 (amended): `parse_diff` is total — for every input line list it
returns a ChangeSet mapping, never an exception; the modelled failure
point (the `changed_lines[current_file]` subscript) is proven unreachable.
(`parse_diff_hunks` is *not* total; see the counterexample.) -/
theorem c9_theorem (lines : List String) : (parseDiff lines).isSome := by
  unfold parseDiff
  have := parseDiffAux_some lines pdInit (by intro f hf; simp [pdInit] at hf)
  obtain ⟨st, hst⟩ := Option.isSome_iff_exists.mp this
  simp [hst]

/-- C9, counterexample to the claim as stated: on a diff whose added line
follows the `+++ b/a.py` header with no hunk header in between,
`parse_diff_hunks` reads the never-assigned local `current_line_in_hunk`
and raises `UnboundLocalError` (modelled as `none`) instead of returning a
ChangeSet. -/
theorem c9_counterexample : parseDiffHunks ["+++ b/a.py", "+x"] = none := by decide

/-! ## C4: files with only removed lines -/

/-- C4 (amended): every file appearing in the mapping returned by
`parse_diff_hunks` has a non-empty added-line set (pure-deletion files are
dropped by its final filter); `parse_diff`, by contrast, retains such a
file, mapped to the empty set — shown here on a one-file pure-deletion
diff. -/
theorem c4_theorem :
    (∀ (lines : List String) (m : List (String × List Nat)) (f : String)
      (s : List Nat), parseDiffHunks lines = some m → (f, s) ∈ m → s ≠ []) ∧
    parseDiff ["+++ b/c.py", "@@ -2,2 +2,0 @@", "-a", "-b"] = some [("c.py", [])] := by
  constructor
  · intro lines m f s hm hmem
    unfold parseDiffHunks at hm
    cases haux : parseDiffHunksAux phInit lines with
    | none => simp [haux] at hm
    | some st =>
      simp [haux] at hm
      subst hm
      have := List.of_mem_filter hmem
      simpa using this
  · decide

theorem c4_witness : ((4 : Nat) :: []) ≠ [] :=
  c4_theorem.1 ["+++ b/a.py", "@@ -4,1 +4,1 @@", "+z"] [("a.py", [4])] "a.py" [4]
    (by decide) (by decide)

/-- C4, counterexample to the claim as stated: a `.py` file whose diff
consists only of removed lines *does* appear in the mapping returned by
the diff parser `parse_diff` (with an empty line set). -/
theorem c4_counterexample :
    parseDiff ["+++ b/a.py", "@@ -1,1 +1,0 @@", "-x"] = some [("a.py", [])] ∧
    "a.py" ∈ dkeys [("a.py", ([] : List Nat))] := by decide

/-! ## C5: malformed hunk headers -/

/-- C5 (amended): a line that starts with `@@` but fails the hunk-header
pattern does **not** reset the current-file tracking and raises nothing:
`parse_diff` counts it as a context line (counter + 1, file kept, map
kept), and `parse_diff_hunks` leaves its whole state unchanged — in both
parsers subsequent lines of the file keep contributing to the ChangeSet. -/
theorem c5_theorem :
    ∀ (st : PDState) (st2 : PHState) (f : String) (line : String),
      st.currentFile = some f →
      strStarts line "@@" = true →
      hunkMatchA line = none →
      hunkMatchB line = none →
      st2.currentFilename.isSome = true →
      parseDiffLine st line = some { st with counter := st.counter + 1 } ∧
      parseDiffHunksLine st2 line = some st2 := by
  intro st st2 f line hcf hat hA hB hfn
  have h2 : ("@@".data).isPrefixOf line.data = true := hat
  rw [ List.isPrefixOf_iff_prefix] at h2
  obtain ⟨t, ht⟩ := h2
  have hdata : line.data = '@' :: '@' :: t := by rw [← ht]; rfl
  have hplus : strStarts line "+" = false := by
    show ("+".data).isPrefixOf line.data = false
    rw [hdata]
    simp [List.isPrefixOf]
  have hminus : strStarts line "-" = false := by
    show ("-".data).isPrefixOf line.data = false
    rw [hdata]
    simp [List.isPrefixOf]
  have hbs : strStarts line "\\" = false := by
    show ("\\".data).isPrefixOf line.data = false
    rw [hdata]
    simp [List.isPrefixOf]
  have hfile : strStarts line "+++ b/" = false := by
    show ("+++ b/".data).isPrefixOf line.data = false
    rw [hdata]
    simp [List.isPrefixOf]
  have hfm : filePathMatch line = none := by simp [filePathMatch, hfile]
  constructor
  · simp [parseDiffLine, hfm, hcf, hA, hplus, hminus, hbs]
  · simp [parseDiffHunksLine, hfile, hat, hfn, hB, hplus]

theorem c5_witness :
    parseDiffLine ⟨[("b.py", [])], some "b.py", 7⟩ "@@ oops"
      = some ⟨[("b.py", [])], some "b.py", 8⟩ ∧
    parseDiffHunksLine ⟨[("b.py", [])], some "b.py", none, none⟩ "@@ oops"
      = some ⟨[("b.py", [])], some "b.py", none, none⟩ :=
  c5_theorem ⟨[("b.py", [])], some "b.py", 7⟩
    ⟨[("b.py", [])], some "b.py", none, none⟩ "b.py" "@@ oops"
    rfl (by decide) (by decide) (by decide) rfl

/-- C5, counterexample to the claim as stated: after the malformed header
`@@ junk`, the file is *not* skipped — the following added line is still
recorded (as line 1, the malformed header itself having been counted as a
context line from counter 0), so the file contributes a non-empty set. -/
theorem c5_counterexample :
    parseDiff ["+++ b/a.py", "@@ junk", "+x"] = some [("a.py", [1])] ∧
    (1 : Nat) :: [] ≠ [] := by decide

/-! ## C1: hunk line-number bookkeeping -/

theorem hunkRecs_bounds : ∀ (body : List String) (c : Nat),
    (∀ x ∈ (hunkRecs c body).1, c ≤ x) ∧ c ≤ (hunkRecs c body).2 := by
  intro body
  induction body with
  | nil => intro c; simp [hunkRecs]
  | cons l r ih =>
    intro c
    by_cases hp : strStarts l "+" = true
    · refine ⟨?_, ?_⟩
      · intro x hx
        simp only [hunkRecs, hp, if_true] at hx
        rcases List.mem_cons.mp hx with h | h
        · exact le_of_eq h.symm
        · exact le_trans (Nat.le_succ c) ((ih (c + 1)).1 x h)
      · simp only [hunkRecs, hp, if_true]
        exact le_trans (Nat.le_succ c) (ih (c + 1)).2
    · by_cases hctx : (¬ strStarts l "-" = true ∧ ¬ strStarts l "\\" = true)
      · refine ⟨?_, ?_⟩
        · intro x hx
          simp only [hunkRecs, hp, hctx, if_false, if_true] at hx
          exact le_trans (Nat.le_succ c) ((ih (c + 1)).1 x hx)
        · simp only [hunkRecs, hp, hctx, if_false, if_true]
          exact le_trans (Nat.le_succ c) (ih (c + 1)).2
      · refine ⟨?_, ?_⟩
        · intro x hx
          simp only [hunkRecs, hp, hctx, if_false] at hx
          exact (ih c).1 x hx
        · simp only [hunkRecs, hp, hctx, if_false]
          exact (ih c).2

theorem hunkRecs_chain : ∀ (body : List String) (c : Nat),
    List.Chain' (· < ·) (hunkRecs c body).1 := by
  intro body
  induction body with
  | nil => intro c; simp [hunkRecs]
  | cons l r ih =>
    intro c
    by_cases hp : strStarts l "+" = true
    · simp only [hunkRecs, hp, if_true]
      rw [List.chain'_cons']
      refine ⟨?_, ih (c + 1)⟩
      intro y hy
      have hmem : y ∈ (hunkRecs (c + 1) r).1 := List.mem_of_mem_head? hy
      exact lt_of_lt_of_le (Nat.lt_succ_self c) ((hunkRecs_bounds r (c + 1)).1 y hmem)
    · by_cases hctx : (¬ strStarts l "-" = true ∧ ¬ strStarts l "\\" = true)
      · simp only [hunkRecs, hp, hctx, if_false, if_true]
        exact ih (c + 1)
      · simp only [hunkRecs, hp, hctx, if_false]
        exact ih c

theorem parseDiff_hunkBody_run : ∀ (body : List String) (m : List (String × List Nat))
    (f : String) (cur : List Nat) (cnt : Nat),
    (∀ l ∈ body, filePathMatch l = none ∧ hunkMatchA l = none) →
    dlookup f m = some cur →
    (∀ x ∈ cur, x < cnt) →
    parseDiffAux ⟨m, some f, cnt⟩ body =
      some ⟨dinsert f (cur ++ (hunkRecs cnt body).1) m, some f, (hunkRecs cnt body).2⟩ := by
  intro body
  induction body with
  | nil =>
    intro m f cur cnt _ hl _
    simp only [parseDiffAux, hunkRecs, List.append_nil]
    rw [dinsert_self_of_lookup hl]
  | cons l r ih =>
    intro m f cur cnt hb hl hcur
    have hbl := hb l (by simp)
    have hbr : ∀ l' ∈ r, filePathMatch l' = none ∧ hunkMatchA l' = none :=
      fun l' h' => hb l' (by simp [h'])
    by_cases hp : strStarts l "+" = true
    · have hadd : addIfAbsent cnt cur = cur ++ [cnt] := by
        unfold addIfAbsent
        rw [if_neg]
        intro hc
        exact Nat.lt_irrefl cnt (hcur cnt hc)
      have hstep : parseDiffLine ⟨m, some f, cnt⟩ l
          = some ⟨dinsert f (cur ++ [cnt]) m, some f, cnt + 1⟩ := by
        simp [parseDiffLine, hbl.1, hbl.2, hp, hl, hadd]
      have hcur' : ∀ x ∈ cur ++ [cnt], x < cnt + 1 := by
        intro x hx
        rcases List.mem_append.mp hx with h | h
        · exact Nat.lt_succ_of_lt (hcur x h)
        · simp at h
          simp [h]
      have ihr := ih (dinsert f (cur ++ [cnt]) m) f (cur ++ [cnt]) (cnt + 1) hbr
        (dlookup_dinsert_self f (cur ++ [cnt]) m) hcur'
      simp only [parseDiffAux, hstep, someBindEq]
      rw [ihr, dinsert_dinsert_same]
      simp only [hunkRecs, hp, if_true]
      rw [List.append_assoc]
      rfl
    · by_cases hctx : (¬ strStarts l "-" = true ∧ ¬ strStarts l "\\" = true)
      · have hstep : parseDiffLine ⟨m, some f, cnt⟩ l = some ⟨m, some f, cnt + 1⟩ := by
          simp [parseDiffLine, hbl.1, hbl.2, hp, hctx.1, hctx.2]
        have hcur' : ∀ x ∈ cur, x < cnt + 1 := fun x hx => Nat.lt_succ_of_lt (hcur x hx)
        have ihr := ih m f cur (cnt + 1) hbr hl hcur'
        have hr : hunkRecs cnt (l :: r) = hunkRecs (cnt + 1) r := by
          simp only [hunkRecs]
          rw [if_neg hp, if_pos hctx]
        simp only [parseDiffAux, hstep, someBindEq]
        rw [ihr, hr]
      · have hstep : parseDiffLine ⟨m, some f, cnt⟩ l = some ⟨m, some f, cnt⟩ := by
          rcases not_and_or.mp hctx with h1 | h1
          · have hm : strStarts l "-" = true := by
              by_contra hmf
              exact h1 (by simpa using hmf)
            simp [parseDiffLine, hbl.1, hbl.2, hp, hm]
          · have hm : strStarts l "\\" = true := by
              by_contra hmf
              exact h1 (by simpa using hmf)
            simp [parseDiffLine, hbl.1, hbl.2, hp, hm]
        have ihr := ih m f cur cnt hbr hl hcur
        have hr : hunkRecs cnt (l :: r) = hunkRecs cnt r := by
          simp only [hunkRecs]
          rw [if_neg hp, if_neg hctx]
        simp only [parseDiffAux, hstep, someBindEq]
        rw [ihr, hr]

/-- C1 (amended): on reading a hunk header whose `+`-side start is `c`,
`parse_diff` sets its new-file line counter to `c`; over the hunk's body
each added line is recorded at the current counter value and increments
it, each context line increments it without recording, and removed lines
(and `\ No newline` markers) leave it unchanged — exactly the `hunkRecs`
bookkeeping — so the first recorded added line is `c` plus the number of
preceding added/context lines of the hunk (not `c` itself in general) and
the recorded numbers of a hunk are strictly increasing. -/
theorem c1_theorem :
    ∀ (hl : String) (body : List String) (c : Nat) (f : String)
      (m : List (String × List Nat)) (cnt : Nat),
      hunkMatchA hl = some c →
      filePathMatch hl = none →
      (∀ l ∈ body, filePathMatch l = none ∧ hunkMatchA l = none) →
      dlookup f m = some [] →
      parseDiffAux ⟨m, some f, cnt⟩ (hl :: body) =
        some ⟨dinsert f (hunkRecs c body).1 m, some f, (hunkRecs c body).2⟩ ∧
      List.Chain' (· < ·) (hunkRecs c body).1 := by
  intro hl body c f m cnt hh hf hb hm
  refine ⟨?_, hunkRecs_chain body c⟩
  have hstep : parseDiffLine ⟨m, some f, cnt⟩ hl = some ⟨m, some f, c⟩ := by
    simp [parseDiffLine, hf, hh]
  simp only [parseDiffAux, hstep, someBindEq]
  have := parseDiff_hunkBody_run body m f [] c hb hm (by simp)
  simpa using this

theorem c1_witness :
    parseDiffAux ⟨[("a.py", [])], some "a.py", 0⟩ ["@@ -1,2 +1,2 @@", " c", "+x"] =
      some ⟨dinsert "a.py" (hunkRecs 1 [" c", "+x"]).1 [("a.py", [])], some "a.py",
        (hunkRecs 1 [" c", "+x"]).2⟩ ∧
    List.Chain' (· < ·) (hunkRecs 1 [" c", "+x"]).1 :=
  c1_theorem "@@ -1,2 +1,2 @@" [" c", "+x"] 1 "a.py" [("a.py", [])] 0
    (by decide) (by decide) (by decide) (by decide)

/-- C1, counterexample to the claim as stated: in the hunk
`@@ -1,2 +1,2 @@` (so `c = 1`) whose first body line is a context line,
the first added line is recorded as line 2, not as `c = 1`. -/
theorem c1_counterexample :
    parseDiff ["+++ b/a.py", "@@ -1,2 +1,2 @@", " c", "+y"] = some [("a.py", [2])] ∧
    (2 : Nat) ≠ 1 := by decide

/-! ## C6: recursion and self-signatures -/

theorem findMethSig_ne_self :
    ∀ (classes : List (String × ClassInfo)) (potential : String)
      (parentClass : Option String) (blockName : String) (t : LTarget) (sig : String),
      findMethSig potential parentClass blockName classes = some (t, sig) →
      t ≠ selfTarget parentClass blockName := by
  intro classes
  induction classes with
  | nil =>
    intro potential pc bn t sig h
    simp [findMethSig] at h
  | cons ce rest ih =>
    intro potential pc bn t sig h
    obtain ⟨cn, ci⟩ := ce
    simp only [findMethSig] at h
    cases hm : dlookup potential ci.methods with
    | none =>
      rw [hm] at h
      exact ih potential pc bn t sig h
    | some mi =>
      rw [hm] at h
      have h' : (if ¬(pc = some cn ∧ potential = bn)
          then some (LTarget.mth cn potential, mi.signature)
          else findMethSig potential pc bn rest) = some (t, sig) := h
      by_cases hcond : ¬(pc = some cn ∧ potential = bn)
      · rw [if_pos hcond] at h'
        have ht : t = LTarget.mth cn potential := by
          cases h'
          rfl
        subst ht
        cases pc with
        | none => simp [selfTarget]
        | some c =>
          simp only [selfTarget]
          intro he
          injection he with h1 h2
          exact hcond ⟨by rw [h1], h2⟩
      · rw [if_neg hcond] at h'
        exact ih potential pc bn t sig h'

theorem resolveLocal_ne_self (p : AstParserState) (blockName : String)
    (parentClass : Option String) (call : String) (t : LTarget) (sig : String)
    (h : resolveLocal p blockName parentClass call = some (t, sig)) :
    t ≠ selfTarget parentClass blockName := by
  unfold resolveLocal at h
  cases hf : dlookup call p.functions with
  | some fi =>
    rw [hf] at h
    have h' : (if call ≠ blockName then some (LTarget.fn call, fi.signature)
        else none) = some (t, sig) := h
    by_cases hc : call ≠ blockName
    · rw [if_pos hc] at h'
      have ht : t = LTarget.fn call := by
        cases h'
        rfl
      subst ht
      cases parentClass with
      | none =>
        simp only [selfTarget]
        intro he
        injection he with h1
        exact hc h1
      | some c => simp [selfTarget]
    · rw [if_neg hc] at h'
      cases h'
  | none =>
    rw [hf] at h
    exact findMethSig_ne_self p.classes (lastSeg call) parentClass blockName t sig h

/-- C6 (amended): in `get_contextual_code`, every signature entry emitted
inside a block's section comes from a local resolution whose target is not
the block itself — a recursive call never surfaces the block's own
signature.  (`_extract_node_context` in ast_analyzer.py lacks this guard;
see the counterexample.) -/
theorem c6_theorem :
    ∀ (p : AstParserState) (blockName : String) (parentClass : Option String)
      (calls : List String) (acc : AsmAcc) (call sig : String),
      BPart.sigEntry call sig ∈ (processCalls p blockName parentClass acc calls).2.1 →
      ∃ t, resolveLocal p blockName parentClass call = some (t, sig) ∧
        t ≠ selfTarget parentClass blockName := by
  intro p bn pc calls
  induction calls with
  | nil =>
    intro acc call sig h
    simp [processCalls] at h
  | cons c rest ih =>
    intro acc call sig h
    simp only [processCalls] at h
    cases hr : resolveLocal p bn pc c with
    | some ts =>
      rw [hr] at h
      have h2 : (if ts.2 ≠ "" ∧ c ∉ acc.processedSigs then
          ((processCalls p bn pc { acc with processedSigs := acc.processedSigs ++ [c] } rest).1,
            BPart.sigEntry c ts.2 ::
              (processCalls p bn pc { acc with processedSigs := acc.processedSigs ++ [c] } rest).2.1,
            (processCalls p bn pc { acc with processedSigs := acc.processedSigs ++ [c] } rest).2.2)
        else processCalls p bn pc acc rest).2.1.Mem (BPart.sigEntry call sig) := h
      clear h
      by_cases hcond : (ts.2 ≠ "" ∧ c ∉ acc.processedSigs)
      · rw [if_pos hcond] at h2
        have h : BPart.sigEntry call sig ∈ BPart.sigEntry c ts.2 ::
            (processCalls p bn pc { acc with processedSigs := acc.processedSigs ++ [c] } rest).2.1 := h2
        rcases List.mem_cons.mp h with he | he
        · have hc : call = c ∧ sig = ts.2 := by
            injection he with h1 h2
            exact ⟨h1, h2⟩
          obtain ⟨hc1, hc2⟩ := hc
          subst hc1
          subst hc2
          refine ⟨ts.1, ?_, resolveLocal_ne_self p bn pc call ts.1 ts.2 (by rw [hr])⟩
          rw [hr]
        · exact ih _ call sig he
      · rw [if_neg hcond] at h2
        exact ih _ call sig h2
    | none =>
      rw [hr] at h
      cases hi : findImport p.imports acc.processedImports (firstSeg c) with
      | some imp =>
        rw [hi] at h
        have h2 : BPart.sigEntry call sig ∈ (processCalls p bn pc
            { acc with processedImports := acc.processedImports ++ [imp] } rest).2.1 := h
        exact ih _ call sig h2
      | none =>
        rw [hi] at h
        have h2 : BPart.sigEntry call sig ∈ (processCalls p bn pc acc rest).2.1 := h
        exact ih _ call sig h2

theorem c6_witness :
    ∃ t, resolveLocal ⟨[("g", ⟨"g", 1, 2, [], "def g():", "def g(): pass"⟩)], [], []⟩
        "f" none "g" = some (t, "def g():") ∧
      t ≠ selfTarget none "f" :=
  c6_theorem ⟨[("g", ⟨"g", 1, 2, [], "def g():", "def g(): pass"⟩)], [], []⟩
    "f" none ["g"] ⟨[], []⟩ "g" "def g():" (by decide)

/-- C6, counterexample to the claim as stated: `_extract_node_context`
(ast_analyzer.py) has no self-check — for the function `foo` whose body
calls `foo` recursively, the context block of `foo`'s own section contains
the resolved-call line `def foon: ...` built from `foo`'s own signature
(`ast.unparse` of its arguments object renders the bare parameter `n`). -/
theorem c6_counterexample :
    "def foon: ..." ∈ extractNodeContext "foo" (ANode.fn ⟨1, 2, "n", "BODY"⟩)
      ⟨[], [("foo", ⟨1, 2, "n", "BODY"⟩)], [], [("foo", ["foo"])], []⟩ "a.py" := by
  decide

/-! ## C8: import resolution -/

/-- C8 (amended): for a call that does not resolve locally, the resolver
takes the call's **first** dotted segment and emits the first import whose
**raw text contains** `import {seg}`, `from {seg} import` or `as {seg}` as
a substring and was not already emitted for this file (a plain-text scan,
not a bound-names lookup); in particular, for a source with `import os`
and a localized function calling `os.path.join(...)`, the file's bundle
contains the literal text `import os`. -/
theorem c8_theorem :
    (∀ (imports processed : List String) (base : String),
        findImport imports processed base =
          imports.find? (fun imp => impMatches base imp && !processed.contains imp)) ∧
    BPart.importLine "import os" ∈
      assembleFile ⟨[("f", ⟨"f", 1, 2, ["os.path.join"], "def f():", "SRC"⟩)], [],
        ["import os"]⟩ "a.py" [1] := by
  constructor
  · intro imports
    induction imports with
    | nil => intro processed base; simp [findImport]
    | cons imp rest ih =>
      intro processed base
      by_cases hc : (impMatches base imp = true ∧ imp ∉ processed)
      · have hp : (impMatches base imp && !processed.contains imp) = true := by
          simp [hc.1]
          simpa using hc.2
        simp only [List.find?, hp]
        simp [findImport, hc]
      · have hp : (impMatches base imp && !processed.contains imp) = false := by
          by_cases hm : impMatches base imp = true
          · have hmem : imp ∈ processed := by
              by_contra hn
              exact hc ⟨hm, hn⟩
            simp [hm]
            simpa using hmem
          · have hm' : impMatches base imp = false := Bool.eq_false_iff.mpr hm
            simp [hm']
        simp only [List.find?, hp]
        simp only [findImport]
        rw [if_neg hc]
        exact ih processed base
  · decide

/-- C8, counterexample to the claim as stated: with the single import
`import ostrich` (bound names `{ostrich}`) and a localized function
calling `os.path.join(...)`, the substring scan matches `import os`
inside `import ostrich` and emits it, although no import binding's bound
names contain the segment `os`. -/
theorem c8_counterexample :
    importLines (assembleFile ⟨[("f", ⟨"f", 1, 2, ["os.path.join"], "def f():", "SRC"⟩)],
        [], ["import ostrich"]⟩ "a.py" [1]) = ["import ostrich"] ∧
    "os" ∉ specBoundNames "import ostrich" := by decide

/-! ## C2: function/method localization in `get_contextual_code` -/

theorem nodup_filterMap_keys {β γ : Type} (l : List (String × β)) (g : String × β → Option γ)
    (key : γ → String) (hg : ∀ x ∈ l, ∀ y, g x = some y → key y = x.1)
    (h : (l.map Prod.fst).Nodup) : (l.filterMap g).Nodup := by
  induction l with
  | nil => simp
  | cons x t ih =>
    simp only [List.map_cons, List.nodup_cons] at h
    obtain ⟨hx, ht⟩ := h
    have ihr := ih (fun a ha y hy => hg a (List.mem_cons_of_mem x ha) y hy) ht
    cases hgx : g x with
    | none => simpa [List.filterMap_cons, hgx] using ihr
    | some y =>
      simp only [List.filterMap_cons, hgx]
      refine List.nodup_cons.mpr ⟨?_, ihr⟩
      intro hy
      obtain ⟨a, ha, hay⟩ := List.mem_filterMap.mp hy
      have h1 : key y = x.1 := hg x (List.mem_cons_self x t) y hgx
      have h2 : key y = a.1 := hg a (List.mem_cons_of_mem x ha) y hay
      refine hx ?_
      rw [← h1, h2]
      exact List.mem_map.mpr ⟨a, ha, rfl⟩

theorem nodup_flatMap_tagged {β γ : Type} (l : List (String × β)) (g : String × β → List γ)
    (tag : γ → String)
    (htag : ∀ x ∈ l, ∀ y ∈ g x, tag y = x.1)
    (hkeys : (l.map Prod.fst).Nodup)
    (hin : ∀ x ∈ l, (g x).Nodup) : (l.flatMap g).Nodup := by
  induction l with
  | nil => simp
  | cons x t ih =>
    simp only [List.map_cons, List.nodup_cons] at hkeys
    obtain ⟨hx, ht⟩ := hkeys
    simp only [List.flatMap_cons]
    refine List.Nodup.append (hin x (List.mem_cons_self x t))
      (ih (fun a ha y hy => htag a (List.mem_cons_of_mem x ha) y hy) ht
        (fun a ha => hin a (List.mem_cons_of_mem x ha))) ?_
    intro y hy1 hy2
    obtain ⟨a, ha, hay⟩ := List.mem_flatMap.mp hy2
    have h1 : tag y = x.1 := htag x (List.mem_cons_self x t) y hy1
    have h2 : tag y = a.1 := htag a (List.mem_cons_of_mem x ha) y hay
    refine hx ?_
    rw [← h1, h2]
    exact List.mem_map.mpr ⟨a, ha, rfl⟩

/-- C2 (confirmed): in `get_contextual_code`'s changed-block collection, a
standalone Function appears iff some changed line lies in its inclusive
line range, a Method appears (tagged with its owning class) iff some
changed line lies in *its* range, and — under the invariants the
`AstParser` dicts guarantee (unique keys, `info.name` = key) — no
definition identity `(owner?, name)` appears twice. -/
theorem c2_theorem (p : AstParserState) (cl : List Nat) :
    (∀ fe ∈ p.functions, (("Function", fe.2, (none : Option String)) ∈ changedBlocks cl p ↔
        hitRange cl fe.2.startLine fe.2.endLine = true)) ∧
    (∀ ce ∈ p.classes, ∀ me ∈ ce.2.methods,
      (("Method", me.2, some ce.1) ∈ changedBlocks cl p ↔
        hitRange cl me.2.startLine me.2.endLine = true)) ∧
    ((dkeys p.functions).Nodup →
      (∀ fe ∈ p.functions, fe.2.name = fe.1) →
      (dkeys p.classes).Nodup →
      (∀ ce ∈ p.classes, (dkeys ce.2.methods).Nodup) →
      (∀ ce ∈ p.classes, ∀ me ∈ ce.2.methods, me.2.name = me.1) →
      ((changedBlocks cl p).map (fun b => (b.2.2, b.2.1.name))).Nodup) := by
  refine ⟨?_, ?_, ?_⟩
  · intro fe hfe
    constructor
    · intro hmem
      rcases List.mem_append.mp hmem with hF | hC
      · obtain ⟨a, ha, hav⟩ := List.mem_filterMap.mp hF
        rw [Option.ite_none_right_eq_some] at hav
        obtain ⟨hhit, heq⟩ := hav
        simp only [Option.some.injEq, Prod.mk.injEq] at heq
        rw [← heq.2.1]
        exact hhit
      · obtain ⟨a, ha, hay⟩ := List.mem_flatMap.mp hC
        obtain ⟨b, hb, hbv⟩ := List.mem_filterMap.mp hay
        rw [Option.ite_none_right_eq_some] at hbv
        simp only [Option.some.injEq, Prod.mk.injEq] at hbv
        exact absurd hbv.2.1 (by decide)
    · intro hhit
      exact List.mem_append_left _
        (List.mem_filterMap.mpr ⟨fe, hfe, by simp [hhit]⟩)
  · intro ce hce me hme
    constructor
    · intro hmem
      rcases List.mem_append.mp hmem with hF | hC
      · obtain ⟨a, ha, hav⟩ := List.mem_filterMap.mp hF
        rw [Option.ite_none_right_eq_some] at hav
        simp only [Option.some.injEq, Prod.mk.injEq] at hav
        exact absurd hav.2.1 (by decide)
      · obtain ⟨a, ha, hay⟩ := List.mem_flatMap.mp hC
        obtain ⟨b, hb, hbv⟩ := List.mem_filterMap.mp hay
        rw [Option.ite_none_right_eq_some] at hbv
        obtain ⟨hhit, heq⟩ := hbv
        simp only [Option.some.injEq, Prod.mk.injEq] at heq
        rw [← heq.2.1]
        exact hhit
    · intro hhit
      refine List.mem_append_right _ (List.mem_flatMap.mpr ⟨ce, hce, ?_⟩)
      exact List.mem_filterMap.mpr ⟨me, hme, by simp [hhit]⟩
  · intro hfn hfc hcn hmn hmc
    unfold changedBlocks
    rw [List.map_append]
    refine List.Nodup.append ?_ ?_ ?_
    · rw [List.map_filterMap]
      refine nodup_filterMap_keys p.functions _ (fun pr => pr.2) ?_ hfn
      intro x hxm y hy
      by_cases hhit : hitRange cl x.2.startLine x.2.endLine = true
      · simp only [hhit, if_true, Option.map_some', Option.some.injEq] at hy
        rw [← hy]
        exact hfc x hxm
      · simp [hhit] at hy
    · rw [List.map_flatMap]
      refine nodup_flatMap_tagged p.classes _ (fun pr => pr.1.getD "") ?_ hcn ?_
      · intro x hxm y hy
        rw [List.map_filterMap] at hy
        obtain ⟨b, hb, hbv⟩ := List.mem_filterMap.mp hy
        by_cases hhit : hitRange cl b.2.startLine b.2.endLine = true
        · simp only [hhit, if_true, Option.map_some', Option.some.injEq] at hbv
          rw [← hbv]
          simp
        · simp [hhit] at hbv
      · intro x hxm
        rw [List.map_filterMap]
        refine nodup_filterMap_keys x.2.methods _ (fun pr => pr.2) ?_ (hmn x hxm)
        intro b hbm y hy
        by_cases hhit : hitRange cl b.2.startLine b.2.endLine = true
        · simp only [hhit, if_true, Option.map_some', Option.some.injEq] at hy
          rw [← hy]
          exact hmc x hxm b hbm
        · simp [hhit] at hy
    · intro y hy1 hy2
      rw [List.map_filterMap] at hy1
      obtain ⟨a, _, hav⟩ := List.mem_filterMap.mp hy1
      rw [List.map_flatMap] at hy2
      obtain ⟨c, _, hcy⟩ := List.mem_flatMap.mp hy2
      rw [List.map_filterMap] at hcy
      obtain ⟨b, _, hbv⟩ := List.mem_filterMap.mp hcy
      by_cases h1 : hitRange cl a.2.startLine a.2.endLine = true
      · by_cases h2 : hitRange cl b.2.startLine b.2.endLine = true
        · simp only [h1, h2, if_true, Option.map_some', Option.some.injEq] at hav hbv
          rw [← hav] at hbv
          simp at hbv
        · simp [h2] at hbv
      · simp [h1] at hav

theorem c2_witness :
    ((("Function", (⟨"f", 1, 3, [], "s", "b"⟩ : FuncInfo), (none : Option String)) ∈
        changedBlocks [2] ⟨[("f", ⟨"f", 1, 3, [], "s", "b"⟩)],
          [("C", ⟨"C", 5, 9, [("m", ⟨"m", 6, 7, [], "sm", "bm"⟩)]⟩)], []⟩) ↔
      hitRange [2] 1 3 = true) ∧
    ((changedBlocks [2] ⟨[("f", ⟨"f", 1, 3, [], "s", "b"⟩)],
        [("C", ⟨"C", 5, 9, [("m", ⟨"m", 6, 7, [], "sm", "bm"⟩)]⟩)], []⟩).map
      (fun b => (b.2.2, b.2.1.name))).Nodup :=
  ⟨(c2_theorem ⟨[("f", ⟨"f", 1, 3, [], "s", "b"⟩)],
      [("C", ⟨"C", 5, 9, [("m", ⟨"m", 6, 7, [], "sm", "bm"⟩)]⟩)], []⟩ [2]).1
      ("f", ⟨"f", 1, 3, [], "s", "b"⟩) (by decide),
    (c2_theorem ⟨[("f", ⟨"f", 1, 3, [], "s", "b"⟩)],
      [("C", ⟨"C", 5, 9, [("m", ⟨"m", 6, 7, [], "sm", "bm"⟩)]⟩)], []⟩ [2]).2.2
      (by decide) (by decide) (by decide) (by decide) (by decide)⟩

/-! ## C3: class localization in `_find_relevant_nodes` -/

theorem relFunsAux_mem : ∀ (fdefs : List (String × FNode)) (added : List Nat)
    (acc : List (String × ANode)) (ps : List String),
    (∀ x ∈ (relFunsAux added acc ps fdefs).1, x ∈ acc ∨ ∃ f, x.2 = ANode.fn f) ∧
    (∀ n ∈ (relFunsAux added acc ps fdefs).2, n ∈ ps ∨ n ∈ dkeys fdefs) := by
  intro fdefs
  induction fdefs with
  | nil =>
    intro added acc ps
    simp only [relFunsAux]
    exact ⟨fun x hx => Or.inl hx, fun n hn => Or.inl hn⟩
  | cons e t ih =>
    intro added acc ps
    obtain ⟨n0, f0⟩ := e
    by_cases hc : (hitRange added f0.startLine f0.endLine = true ∧ n0 ∉ ps)
    · simp only [relFunsAux, if_pos hc]
      refine ⟨?_, ?_⟩
      · intro x hx
        rcases (ih added (acc ++ [(n0, ANode.fn f0)]) (ps ++ [n0])).1 x hx with hz | hz
        · rcases List.mem_append.mp hz with h1 | h1
          · exact Or.inl h1
          · simp at h1
            exact Or.inr ⟨f0, by rw [h1]⟩
        · exact Or.inr hz
      · intro n hn
        rcases (ih added (acc ++ [(n0, ANode.fn f0)]) (ps ++ [n0])).2 n hn with hz | hz
        · rcases List.mem_append.mp hz with h1 | h1
          · exact Or.inl h1
          · simp at h1
            exact Or.inr (by simp [dkeys, h1])
        · exact Or.inr (by simpa [dkeys] using Or.inr hz)
    · simp only [relFunsAux, if_neg hc]
      refine ⟨?_, ?_⟩
      · intro x hx
        exact (ih added acc ps).1 x hx
      · intro n hn
        rcases (ih added acc ps).2 n hn with hz | hz
        · exact Or.inl hz
        · exact Or.inr (by simpa [dkeys] using Or.inr hz)

theorem relClsAux_acc_sub : ∀ (cdefs : List (String × KNode)) (added : List Nat)
    (acc : List (String × ANode)) (ps : List String),
    ∀ x ∈ acc, x ∈ (relClsAux added acc ps cdefs).1 := by
  intro cdefs
  induction cdefs with
  | nil =>
    intro added acc ps x hx
    simpa [relClsAux] using hx
  | cons e t ih =>
    intro added acc ps x hx
    obtain ⟨n0, k0⟩ := e
    by_cases h1 : n0 ∈ ps
    · simp only [relClsAux, if_pos h1]
      exact ih added acc ps x hx
    · by_cases h2 : (hitRange added k0.startLine k0.endLine
          || k0.body.any fun m => hitRange added m.2.startLine m.2.endLine) = true
      · simp only [relClsAux, if_neg h1, if_pos h2]
        exact ih added (acc ++ [(n0, ANode.cls k0)]) (ps ++ [n0]) x
          (List.mem_append_left _ hx)
      · simp only [relClsAux, if_neg h1, if_neg h2]
        exact ih added acc ps x hx

theorem relClsAux_mem_fwd : ∀ (cdefs : List (String × KNode)) (added : List Nat)
    (acc : List (String × ANode)) (ps : List String),
    ∀ x ∈ (relClsAux added acc ps cdefs).1,
      x ∈ acc ∨ ∃ e ∈ cdefs, x = (e.1, ANode.cls e.2) ∧
        (hitRange added e.2.startLine e.2.endLine
          || e.2.body.any fun m => hitRange added m.2.startLine m.2.endLine) = true := by
  intro cdefs
  induction cdefs with
  | nil =>
    intro added acc ps x hx
    exact Or.inl (by simpa [relClsAux] using hx)
  | cons e t ih =>
    intro added acc ps x hx
    obtain ⟨n0, k0⟩ := e
    by_cases h1 : n0 ∈ ps
    · rw [show relClsAux added acc ps ((n0, k0) :: t) = relClsAux added acc ps t from by
        simp only [relClsAux, if_pos h1]] at hx
      rcases ih added acc ps x hx with hz | ⟨e', he', hz⟩
      · exact Or.inl hz
      · exact Or.inr ⟨e', List.mem_cons_of_mem _ he', hz⟩
    · by_cases h2 : (hitRange added k0.startLine k0.endLine
          || k0.body.any fun m => hitRange added m.2.startLine m.2.endLine) = true
      · rw [show relClsAux added acc ps ((n0, k0) :: t)
            = relClsAux added (acc ++ [(n0, ANode.cls k0)]) (ps ++ [n0]) t from by
          simp only [relClsAux, if_neg h1, if_pos h2]] at hx
        rcases ih added _ _ x hx with hz | ⟨e', he', hz⟩
        · rcases List.mem_append.mp hz with hm | hm
          · exact Or.inl hm
          · simp at hm
            exact Or.inr ⟨(n0, k0), List.mem_cons_self _ _, by simp [hm], h2⟩
        · exact Or.inr ⟨e', List.mem_cons_of_mem _ he', hz⟩
      · rw [show relClsAux added acc ps ((n0, k0) :: t) = relClsAux added acc ps t from by
          simp only [relClsAux, if_neg h1, if_neg h2]] at hx
        rcases ih added acc ps x hx with hz | ⟨e', he', hz⟩
        · exact Or.inl hz
        · exact Or.inr ⟨e', List.mem_cons_of_mem _ he', hz⟩

theorem relClsAux_mem_bwd : ∀ (cdefs : List (String × KNode)) (added : List Nat)
    (acc : List (String × ANode)) (ps : List String),
    (dkeys cdefs).Nodup →
    (∀ e ∈ cdefs, e.1 ∉ ps) →
    ∀ e ∈ cdefs,
      (hitRange added e.2.startLine e.2.endLine
        || e.2.body.any fun m => hitRange added m.2.startLine m.2.endLine) = true →
      (e.1, ANode.cls e.2) ∈ (relClsAux added acc ps cdefs).1 := by
  intro cdefs
  induction cdefs with
  | nil =>
    intro added acc ps _ _ e he
    simp at he
  | cons e0 t ih =>
    intro added acc ps hnd hps e he hcond
    obtain ⟨n0, k0⟩ := e0
    simp only [dkeys, List.map_cons, List.nodup_cons] at hnd
    have h1 : n0 ∉ ps := hps (n0, k0) (List.mem_cons_self _ _)
    rcases List.mem_cons.mp he with heq | hmem
    · subst heq
      rw [show relClsAux added acc ps ((n0, k0) :: t)
          = relClsAux added (acc ++ [(n0, ANode.cls k0)]) (ps ++ [n0]) t from by
        simp only [relClsAux, if_neg h1, if_pos hcond]]
      exact relClsAux_acc_sub t added _ _ (n0, ANode.cls k0) (by simp)
    · by_cases h2 : (hitRange added k0.startLine k0.endLine
          || k0.body.any fun m => hitRange added m.2.startLine m.2.endLine) = true
      · rw [show relClsAux added acc ps ((n0, k0) :: t)
            = relClsAux added (acc ++ [(n0, ANode.cls k0)]) (ps ++ [n0]) t from by
          simp only [relClsAux, if_neg h1, if_pos h2]]
        refine ih added _ _ hnd.2 ?_ e hmem hcond
        intro e' he'
        intro hin
        rcases List.mem_append.mp hin with hz | hz
        · exact hps e' (List.mem_cons_of_mem _ he') hz
        · simp at hz
          exact hnd.1 (hz ▸ List.mem_map.mpr ⟨e', he', rfl⟩)
      · rw [show relClsAux added acc ps ((n0, k0) :: t) = relClsAux added acc ps t from by
          simp only [relClsAux, if_neg h1, if_neg h2]]
        exact ih added acc ps hnd.2 (fun e' he' => hps e' (List.mem_cons_of_mem _ he'))
          e hmem hcond

/-- C3 (confirmed): in `_find_relevant_nodes`, a class is localized iff its
own line range meets an added line or at least one of its direct methods'
ranges does — never because of another class — and for a localized class
`_extract_node_context` always emits a non-empty context section.  (The
hypotheses are the analyzer invariants: class names unique, and — per the
spec's module-scope uniqueness — no function sharing a class's name.) -/
theorem c3_theorem (a : CodeAnalyzerSt) (added : List Nat)
    (hcn : (dkeys a.class_defs).Nodup)
    (hdisj : ∀ fk ∈ dkeys a.function_defs, fk ∉ dkeys a.class_defs) :
    ∀ ce ∈ a.class_defs,
      (((ce.1, ANode.cls ce.2) ∈ findRelevantNodes a added) ↔
        (hitRange added ce.2.startLine ce.2.endLine = true ∨
          ∃ me ∈ ce.2.body, hitRange added me.2.startLine me.2.endLine = true)) ∧
      (∀ fp, extractNodeContext ce.1 (ANode.cls ce.2) a fp ≠ []) := by
  intro ce hce
  constructor
  · constructor
    · intro hmem
      unfold findRelevantNodes at hmem
      rcases relClsAux_mem_fwd a.class_defs added _ _ _ hmem with hz | ⟨e', he', hz1, hz2⟩
      · rcases (relFunsAux_mem a.function_defs added [] []).1 _ hz with h0 | ⟨f, hf⟩
        · simp at h0
        · simp at hf
      · have he2 : ce.2 = e'.2 := by
          have := congrArg Prod.snd hz1
          simpa using this
        rw [he2]
        rcases Bool.or_eq_true_iff.mp hz2 with ho | ho
        · exact Or.inl ho
        · refine Or.inr ?_
          obtain ⟨m, hm, hmh⟩ := List.any_eq_true.mp ho
          exact ⟨m, hm, by simpa using hmh⟩
    · intro hcond
      unfold findRelevantNodes
      have hcond' : (hitRange added ce.2.startLine ce.2.endLine
          || ce.2.body.any fun m => hitRange added m.2.startLine m.2.endLine) = true := by
        rcases hcond with ho | ⟨m, hm, hmh⟩
        · simp [ho]
        · refine Bool.or_eq_true_iff.mpr (Or.inr ?_)
          exact List.any_eq_true.mpr ⟨m, hm, by simpa using hmh⟩
      refine relClsAux_mem_bwd a.class_defs added _ _ hcn ?_ ce hce hcond'
      intro e' he' hin
      rcases (relFunsAux_mem a.function_defs added [] []).2 _ hin with h0 | h0
      · simp at h0
      · exact hdisj e'.1 h0 (List.mem_map.mpr ⟨e', he', rfl⟩)
  · intro fp
    simp [extractNodeContext]

theorem c3_witness :
    (((("C" : String), ANode.cls ⟨5, 9, [("m", ⟨6, 7, "x", "m src"⟩)], "class C src"⟩) ∈
        findRelevantNodes ⟨[], [], [("C", ⟨5, 9, [("m", ⟨6, 7, "x", "m src"⟩)], "class C src"⟩)],
          [], [("C", [("m", [])])]⟩ [8]) ↔
      (hitRange [8] 5 9 = true ∨
        ∃ me ∈ [(("m" : String), (⟨6, 7, "x", "m src"⟩ : FNode))],
          hitRange [8] me.2.startLine me.2.endLine = true)) ∧
    (∀ fp, extractNodeContext "C"
        (ANode.cls ⟨5, 9, [("m", ⟨6, 7, "x", "m src"⟩)], "class C src"⟩)
        ⟨[], [], [("C", ⟨5, 9, [("m", ⟨6, 7, "x", "m src"⟩)], "class C src"⟩)],
          [], [("C", [("m", [])])]⟩ fp ≠ []) :=
  c3_theorem ⟨[], [], [("C", ⟨5, 9, [("m", ⟨6, 7, "x", "m src"⟩)], "class C src"⟩)],
      [], [("C", [("m", [])])]⟩ [8]
    (by decide) (by decide)
    ("C", ⟨5, 9, [("m", ⟨6, 7, "x", "m src"⟩)], "class C src"⟩) (by decide)

/-! ## C7: per-file dedup of resolved signatures and imports -/

theorem sigCallNames_append (a b : List BPart) :
    sigCallNames (a ++ b) = sigCallNames a ++ sigCallNames b := by
  simp [sigCallNames, List.filterMap_append]

theorem importLines_append (a b : List BPart) :
    importLines (a ++ b) = importLines a ++ importLines b := by
  simp [importLines, List.filterMap_append]

theorem sigCallNames_map_importLine (l : List String) :
    sigCallNames (l.map BPart.importLine) = [] := by
  induction l with
  | nil => simp [sigCallNames]
  | cons x t ih =>
    rw [List.map_cons]
    have e1 : sigCallNames (BPart.importLine x :: t.map BPart.importLine)
        = sigCallNames (t.map BPart.importLine) := by
      simp [sigCallNames, List.filterMap_cons]
    rw [e1, ih]

theorem importLines_map_importLine (l : List String) :
    importLines (l.map BPart.importLine) = l := by
  induction l with
  | nil => simp [importLines]
  | cons x t ih => simpa [importLines, List.filterMap_cons] using ih

theorem findImport_not_processed :
    ∀ (imports processed : List String) (base imp : String),
      findImport imports processed base = some imp → imp ∉ processed := by
  intro imports
  induction imports with
  | nil =>
    intro processed base imp h
    simp [findImport] at h
  | cons i rest ih =>
    intro processed base imp h
    simp only [findImport] at h
    by_cases hc : (impMatches base i = true ∧ i ∉ processed)
    · rw [if_pos hc] at h
      cases h
      exact hc.2
    · rw [if_neg hc] at h
      exact ih processed base imp h

theorem addStrIfAbsent_mem {x y : String} {l : List String} :
    y ∈ addStrIfAbsent x l ↔ y = x ∨ y ∈ l := by
  unfold addStrIfAbsent
  by_cases hx : x ∈ l
  · simp only [if_pos hx]
    constructor
    · exact fun h => Or.inr h
    · rintro (h | h)
      · rw [h]; exact hx
      · exact h
  · simp only [if_neg hx, List.mem_append, List.mem_singleton]
    tauto

theorem addStrIfAbsent_nodup {x : String} {l : List String} (h : l.Nodup) :
    (addStrIfAbsent x l).Nodup := by
  unfold addStrIfAbsent
  by_cases hx : x ∈ l
  · simpa [hx] using h
  · simp only [if_neg hx]
    exact List.Nodup.append h (List.nodup_singleton x) (by
      intro y hy hz
      simp at hz
      exact hx (hz ▸ hy))

theorem processCalls_cons_emit {p : AstParserState} {bn : String} {pc : Option String}
    {acc : AsmAcc} {c : String} {rest : List String} {ts : LTarget × String}
    (hr : resolveLocal p bn pc c = some ts)
    (hcond : ts.2 ≠ "" ∧ c ∉ acc.processedSigs) :
    processCalls p bn pc acc (c :: rest) =
      ((processCalls p bn pc { acc with processedSigs := acc.processedSigs ++ [c] } rest).1,
        BPart.sigEntry c ts.2 ::
          (processCalls p bn pc { acc with processedSigs := acc.processedSigs ++ [c] } rest).2.1,
        (processCalls p bn pc { acc with processedSigs := acc.processedSigs ++ [c] } rest).2.2) := by
  simp only [processCalls, hr]
  rw [if_pos hcond]

theorem processCalls_cons_skipSig {p : AstParserState} {bn : String} {pc : Option String}
    {acc : AsmAcc} {c : String} {rest : List String} {ts : LTarget × String}
    (hr : resolveLocal p bn pc c = some ts)
    (hcond : ¬ (ts.2 ≠ "" ∧ c ∉ acc.processedSigs)) :
    processCalls p bn pc acc (c :: rest) = processCalls p bn pc acc rest := by
  simp only [processCalls, hr]
  rw [if_neg hcond]

theorem processCalls_cons_imp {p : AstParserState} {bn : String} {pc : Option String}
    {acc : AsmAcc} {c : String} {rest : List String} {imp : String}
    (hr : resolveLocal p bn pc c = none)
    (hi : findImport p.imports acc.processedImports (firstSeg c) = some imp) :
    processCalls p bn pc acc (c :: rest) =
      ((processCalls p bn pc { acc with processedImports := acc.processedImports ++ [imp] } rest).1,
        (processCalls p bn pc { acc with processedImports := acc.processedImports ++ [imp] } rest).2.1,
        addStrIfAbsent imp
          (processCalls p bn pc { acc with processedImports := acc.processedImports ++ [imp] } rest).2.2) := by
  simp only [processCalls, hr, hi]

theorem processCalls_cons_none {p : AstParserState} {bn : String} {pc : Option String}
    {acc : AsmAcc} {c : String} {rest : List String}
    (hr : resolveLocal p bn pc c = none)
    (hi : findImport p.imports acc.processedImports (firstSeg c) = none) :
    processCalls p bn pc acc (c :: rest) = processCalls p bn pc acc rest := by
  simp only [processCalls, hr, hi]

theorem importLines_processCalls (p : AstParserState) (bn : String)
    (pc : Option String) : ∀ (calls : List String) (acc : AsmAcc),
    importLines (processCalls p bn pc acc calls).2.1 = [] := by
  intro calls
  induction calls with
  | nil => intro acc; simp [processCalls, importLines]
  | cons c rest ih =>
    intro acc
    cases hr : resolveLocal p bn pc c with
    | some ts =>
      by_cases hcond : (ts.2 ≠ "" ∧ c ∉ acc.processedSigs)
      · rw [processCalls_cons_emit hr hcond]
        simpa [importLines, List.filterMap_cons] using
          ih { acc with processedSigs := acc.processedSigs ++ [c] }
      · rw [processCalls_cons_skipSig hr hcond]
        exact ih acc
    | none =>
      cases hi : findImport p.imports acc.processedImports (firstSeg c) with
      | some imp =>
        rw [processCalls_cons_imp hr hi]
        exact ih { acc with processedImports := acc.processedImports ++ [imp] }
      | none =>
        rw [processCalls_cons_none hr hi]
        exact ih acc

theorem processCalls_sigs (p : AstParserState) (bn : String) (pc : Option String) :
    ∀ (calls : List String) (acc : AsmAcc),
      (processCalls p bn pc acc calls).1.processedSigs
        = acc.processedSigs ++ sigCallNames (processCalls p bn pc acc calls).2.1 ∧
      (acc.processedSigs.Nodup → (processCalls p bn pc acc calls).1.processedSigs.Nodup) := by
  intro calls
  induction calls with
  | nil =>
    intro acc
    simp [processCalls, sigCallNames]
  | cons c rest ih =>
    intro acc
    cases hr : resolveLocal p bn pc c with
    | some ts =>
      by_cases hcond : (ts.2 ≠ "" ∧ c ∉ acc.processedSigs)
      · rw [processCalls_cons_emit hr hcond]
        have ihr := ih { acc with processedSigs := acc.processedSigs ++ [c] }
        refine ⟨?_, ?_⟩
        · rw [ihr.1]
          simp [sigCallNames, List.filterMap_cons, List.append_assoc]
        · intro hnd
          refine ihr.2 ?_
          exact List.Nodup.append hnd (List.nodup_singleton c) (by
            intro y hy hz
            simp at hz
            exact hcond.2 (hz ▸ hy))
      · rw [processCalls_cons_skipSig hr hcond]
        exact ih acc
    | none =>
      cases hi : findImport p.imports acc.processedImports (firstSeg c) with
      | some imp =>
        rw [processCalls_cons_imp hr hi]
        exact ih { acc with processedImports := acc.processedImports ++ [imp] }
      | none =>
        rw [processCalls_cons_none hr hi]
        exact ih acc

theorem processCalls_imps (p : AstParserState) (bn : String) (pc : Option String) :
    ∀ (calls : List String) (acc : AsmAcc),
      (∀ x ∈ acc.processedImports,
        x ∈ (processCalls p bn pc acc calls).1.processedImports) ∧
      (∀ x ∈ (processCalls p bn pc acc calls).2.2,
        x ∈ (processCalls p bn pc acc calls).1.processedImports ∧
          x ∉ acc.processedImports) ∧
      ((processCalls p bn pc acc calls).2.2.Nodup) ∧
      (acc.processedImports.Nodup →
        (processCalls p bn pc acc calls).1.processedImports.Nodup) := by
  intro calls
  induction calls with
  | nil =>
    intro acc
    simp only [processCalls]
    exact ⟨fun x hx => hx, by simp, by simp, fun h => h⟩
  | cons c rest ih =>
    intro acc
    cases hr : resolveLocal p bn pc c with
    | some ts =>
      by_cases hcond : (ts.2 ≠ "" ∧ c ∉ acc.processedSigs)
      · rw [processCalls_cons_emit hr hcond]
        exact ih { acc with processedSigs := acc.processedSigs ++ [c] }
      · rw [processCalls_cons_skipSig hr hcond]
        exact ih acc
    | none =>
      cases hi : findImport p.imports acc.processedImports (firstSeg c) with
      | some imp =>
        rw [processCalls_cons_imp hr hi]
        have hnp : imp ∉ acc.processedImports :=
          findImport_not_processed p.imports acc.processedImports (firstSeg c) imp hi
        have ihr := ih { acc with processedImports := acc.processedImports ++ [imp] }
        refine ⟨?_, ?_, ?_, ?_⟩
        · intro x hx
          exact ihr.1 x (by simp [hx])
        · intro x hx
          rcases addStrIfAbsent_mem.mp hx with he | he
          · subst he
            exact ⟨ihr.1 x (by simp), hnp⟩
          · have h2 := ihr.2.1 x he
            refine ⟨h2.1, ?_⟩
            intro hmem
            exact h2.2 (by simp [hmem])
        · exact addStrIfAbsent_nodup ihr.2.2.1
        · intro hnd
          refine ihr.2.2.2 ?_
          exact List.Nodup.append hnd (List.nodup_singleton imp) (by
            intro y hy hz
            simp at hz
            exact hnp (hz ▸ hy))
      | none =>
        rw [processCalls_cons_none hr hi]
        exact ih acc

theorem assembleBlock_parts (p : AstParserState) (acc : AsmAcc)
    (blk : String × FuncInfo × Option String) :
    (assembleBlock p acc blk).1 = (processCalls p blk.2.1.name blk.2.2 acc blk.2.1.calls).1 ∧
    sigCallNames (assembleBlock p acc blk).2
      = sigCallNames (processCalls p blk.2.1.name blk.2.2 acc blk.2.1.calls).2.1 ∧
    importLines (assembleBlock p acc blk).2
      = (if (processCalls p blk.2.1.name blk.2.2 acc blk.2.1.calls).2.2.isEmpty then []
          else sortStrs (processCalls p blk.2.1.name blk.2.2 acc blk.2.1.calls).2.2) := by
  have ebh : ∀ (k d src : String) (L : List BPart),
      sigCallNames (BPart.blockHeader k d :: BPart.fullDef src :: L) = sigCallNames L ∧
      importLines (BPart.blockHeader k d :: BPart.fullDef src :: L) = importLines L := by
    intro k d src L
    constructor <;> simp [sigCallNames, importLines, List.filterMap_cons]
  have eih : ∀ (L : List BPart),
      sigCallNames (BPart.importsHeader :: L) = sigCallNames L ∧
      importLines (BPart.importsHeader :: L) = importLines L := by
    intro L
    constructor <;> simp [sigCallNames, importLines, List.filterMap_cons]
  refine ⟨rfl, ?_, ?_⟩
  · simp only [assembleBlock]
    rw [sigCallNames_append, (ebh _ _ _ _).1]
    by_cases he : (processCalls p blk.2.1.name blk.2.2 acc blk.2.1.calls).2.2.isEmpty = true
    · rw [if_pos he]
      simp [sigCallNames]
    · rw [if_neg he, (eih _).1, sigCallNames_map_importLine]
      simp
  · simp only [assembleBlock]
    rw [importLines_append, (ebh _ _ _ _).2,
      importLines_processCalls p blk.2.1.name blk.2.2 blk.2.1.calls acc]
    by_cases he : (processCalls p blk.2.1.name blk.2.2 acc blk.2.1.calls).2.2.isEmpty = true
    · rw [if_pos he, if_pos he]
      simp [importLines]
    · rw [if_neg he, if_neg he, (eih _).2, importLines_map_importLine]
      simp

theorem assembleBlocks_dedup (p : AstParserState) :
    ∀ (blocks : List (String × FuncInfo × Option String)) (acc : AsmAcc),
      acc.processedSigs.Nodup → acc.processedImports.Nodup →
      ((sigCallNames (assembleBlocks p acc blocks)).Nodup ∧
        (∀ x ∈ sigCallNames (assembleBlocks p acc blocks), x ∉ acc.processedSigs) ∧
        (importLines (assembleBlocks p acc blocks)).Nodup ∧
        (∀ x ∈ importLines (assembleBlocks p acc blocks), x ∉ acc.processedImports)) := by
  intro blocks
  induction blocks with
  | nil =>
    intro acc h1 h2
    simp [assembleBlocks, sigCallNames, importLines]
  | cons b rest ih =>
    intro acc hS hI
    obtain ⟨hb1, hb2, hb3⟩ := assembleBlock_parts p acc b
    have hsig := processCalls_sigs p b.2.1.name b.2.2 b.2.1.calls acc
    have himp := processCalls_imps p b.2.1.name b.2.2 b.2.1.calls acc
    have hacc1S : (assembleBlock p acc b).1.processedSigs
        = acc.processedSigs ++ sigCallNames (assembleBlock p acc b).2 := by
      rw [hb1, hb2]
      exact hsig.1
    have hacc1Snd : (assembleBlock p acc b).1.processedSigs.Nodup := by
      rw [hb1]
      exact hsig.2 hS
    have hacc1Ind : (assembleBlock p acc b).1.processedImports.Nodup := by
      rw [hb1]
      exact himp.2.2.2 hI
    have ihr := ih (assembleBlock p acc b).1 hacc1Snd hacc1Ind
    have hperm : ∀ x, x ∈ importLines (assembleBlock p acc b).2 →
        x ∈ (processCalls p b.2.1.name b.2.2 acc b.2.1.calls).2.2 := by
      intro x hx
      rw [hb3] at hx
      by_cases he : (processCalls p b.2.1.name b.2.2 acc b.2.1.calls).2.2.isEmpty = true
      · rw [if_pos he] at hx
        simp at hx
      · rw [if_neg he] at hx
        exact (List.perm_insertionSort _ _).mem_iff.mp hx
    have hbImpNd : (importLines (assembleBlock p acc b).2).Nodup := by
      rw [hb3]
      by_cases he : (processCalls p b.2.1.name b.2.2 acc b.2.1.calls).2.2.isEmpty = true
      · rw [if_pos he]
        exact List.nodup_nil
      · rw [if_neg he]
        exact (List.perm_insertionSort _ _).nodup_iff.mpr himp.2.2.1
    have hdisjS : (acc.processedSigs ++ sigCallNames (assembleBlock p acc b).2).Nodup := by
      rw [← hacc1S]
      exact hacc1Snd
    have hbn : (sigCallNames (assembleBlock p acc b).2).Nodup :=
      (List.nodup_append.mp hdisjS).2.1
    have hbfresh : ∀ x ∈ sigCallNames (assembleBlock p acc b).2, x ∉ acc.processedSigs := by
      intro x hx hmem
      exact (List.nodup_append.mp hdisjS).2.2 hmem hx
    simp only [assembleBlocks]
    rw [sigCallNames_append, importLines_append]
    refine ⟨?_, ?_, ?_, ?_⟩
    · refine List.Nodup.append hbn ihr.1 ?_
      intro y hy1 hy2
      have hni := ihr.2.1 y hy2
      rw [hacc1S] at hni
      exact hni (List.mem_append_right _ hy1)
    · intro x hx
      rcases List.mem_append.mp hx with h | h
      · exact hbfresh x h
      · have hni := ihr.2.1 x h
        rw [hacc1S] at hni
        intro hmem
        exact hni (List.mem_append_left _ hmem)
    · refine List.Nodup.append hbImpNd ihr.2.2.1 ?_
      intro y hy1 hy2
      have hy1' := hperm y hy1
      have hin1 : y ∈ (assembleBlock p acc b).1.processedImports := by
        rw [hb1]
        exact (himp.2.1 y hy1').1
      exact ihr.2.2.2 y hy2 hin1
    · intro x hx
      rcases List.mem_append.mp hx with h | h
      · exact (himp.2.1 x (hperm x h)).2
      · have hni := ihr.2.2.2 x h
        intro hmem
        have hin1 : x ∈ (assembleBlock p acc b).1.processedImports := by
          rw [hb1]
          exact himp.1 x hmem
        exact hni hin1

/-- C7 (amended): within one file's section of the assembled bundle, each
call **name** is resolved and its signature entry emitted at most once,
and each distinct import line is emitted at most once, even when the same
call name occurs in several relevant definitions' calls lists.  (The same
signature *text* can still be emitted more than once under distinct call
names that resolve to the same definition; see the counterexample.) -/
theorem c7_theorem (p : AstParserState) (fn : String) (cl : List Nat) :
    (sigCallNames (assembleFile p fn cl)).Nodup ∧
    (importLines (assembleFile p fn cl)).Nodup := by
  unfold assembleFile
  by_cases hb : (changedBlocks cl p).isEmpty = true
  · rw [if_pos hb]
    simp [sigCallNames, importLines]
  · rw [if_neg hb]
    have e1 : sigCallNames (BPart.fileHeader fn :: assembleBlocks p ⟨[], []⟩ (changedBlocks cl p))
        = sigCallNames (assembleBlocks p ⟨[], []⟩ (changedBlocks cl p)) := by
      simp [sigCallNames, List.filterMap_cons]
    have e2 : importLines (BPart.fileHeader fn :: assembleBlocks p ⟨[], []⟩ (changedBlocks cl p))
        = importLines (assembleBlocks p ⟨[], []⟩ (changedBlocks cl p)) := by
      simp [importLines, List.filterMap_cons]
    rw [e1, e2]
    have hres := assembleBlocks_dedup p (changedBlocks cl p) ⟨[], []⟩ (by simp) (by simp)
    exact ⟨hres.1, hres.2.2.1⟩

/-- C7, counterexample to the claim as stated: the dedup key is the call
*name*, not the signature — the changed function `f` calls both `m()` and
`self.m()`, both resolve to the same method `C.m`, and its signature text
`def m(self):` is emitted twice inside one file's bundle. -/
theorem c7_counterexample :
    (sigTexts (assembleFile ⟨[("f", ⟨"f", 1, 3, ["m", "self.m"], "def f():", "FSRC"⟩)],
      [("C", ⟨"C", 5, 9, [("m", ⟨"m", 6, 7, [], "def m(self):", "MSRC"⟩)]⟩)], []⟩
      "a.py" [2])).count "def m(self):" = 2 := by decide

/-! ## C10: what the `CodeAnalyzer` visitor catalogs -/

theorem dkeys_dinsert {β : Type} (k : String) (v : β) (d : List (String × β)) :
    dkeys (dinsert k v d) = if k ∈ dkeys d then dkeys d else dkeys d ++ [k] := by
  induction d with
  | nil => simp [dinsert, dkeys]
  | cons e t ih =>
    obtain ⟨k', v'⟩ := e
    by_cases hk : k = k'
    · subst hk
      simp [dinsert, dkeys]
    · simp only [dinsert, if_neg hk, dkeys, List.map_cons] at ih ⊢
      rw [ih]
      by_cases hm : k ∈ List.map Prod.fst t
      · simp [hm, hk]
      · simp [hm, hk]

theorem mem_dkeys_dinsert {β : Type} {k' : String} (k : String) (v : β)
    {d : List (String × β)} (h : k' ∈ dkeys d) : k' ∈ dkeys (dinsert k v d) := by
  rw [dkeys_dinsert]
  by_cases hm : k ∈ dkeys d
  · simpa [hm] using h
  · simp [hm, h]

theorem visitStmts_nil (st : CAState) : visitStmts st [] = st := by
  simp [visitStmts]

theorem visitStmts_cons_imp (st : CAState) (t : String) (rest : List PyStmt) :
    visitStmts st (.imp t :: rest)
      = visitStmts { st with imports := st.imports ++ [t] } rest := by
  rw [visitStmts]

theorem visitStmts_cons_expr (st : CAState) (c : String) (rest : List PyStmt) :
    visitStmts st (.exprCall c :: rest) = visitStmts st rest := by
  rw [visitStmts]

theorem visitStmts_cons_funcN (st : CAState) (h : st.currentClass = none)
    (n : String) (b : List PyStmt) (rest : List PyStmt) :
    visitStmts st (.funcDef n b :: rest)
      = visitStmts { st with
          function_defs := dinsert n (.funcDef n b) st.function_defs
          function_calls := dinsert n (walkCalls b) st.function_calls } rest := by
  rw [visitStmts, h]

theorem visitStmts_cons_funcS (st : CAState) (c : String)
    (h : st.currentClass = some c) (n : String) (b : List PyStmt)
    (rest : List PyStmt) :
    visitStmts st (.funcDef n b :: rest)
      = visitStmts { st with
          method_calls := dinsert c
            (dinsert n (walkCalls b) ((dlookup c st.method_calls).getD []))
            st.method_calls } rest := by
  rw [visitStmts, h]

theorem visitStmts_cons_class (st : CAState) (n : String) (b : List PyStmt)
    (rest : List PyStmt) :
    visitStmts st (.classDef n b :: rest)
      = visitStmts { visitStmts { st with
          class_defs := dinsert n (.classDef n b) st.class_defs
          method_calls := dinsert n [] st.method_calls
          currentClass := some n } b with currentClass := none } rest := by
  rw [visitStmts]

theorem visitStmts_append (l1 : List PyStmt) : ∀ (st : CAState) (l2 : List PyStmt),
    visitStmts st (l1 ++ l2) = visitStmts (visitStmts st l1) l2 := by
  induction l1 with
  | nil =>
    intro st l2
    rw [List.nil_append, visitStmts_nil]
  | cons s t ih =>
    intro st l2
    cases s with
    | imp txt => rw [List.cons_append, visitStmts_cons_imp, visitStmts_cons_imp, ih]
    | exprCall c => rw [List.cons_append, visitStmts_cons_expr, visitStmts_cons_expr, ih]
    | funcDef n b =>
      cases hc : st.currentClass with
      | none =>
        rw [List.cons_append, visitStmts_cons_funcN st hc, visitStmts_cons_funcN st hc, ih]
      | some c =>
        rw [List.cons_append, visitStmts_cons_funcS st c hc, visitStmts_cons_funcS st c hc, ih]
    | classDef n b =>
      rw [List.cons_append, visitStmts_cons_class, visitStmts_cons_class, ih]

theorem visitStmts_equiv_fuel : ∀ (fuel : Nat) (l : List PyStmt), sizeOf l ≤ fuel →
    ∀ (a b : CAState), stEquiv a b → stEquiv (visitStmts a l) (visitStmts b l) := by
  intro fuel
  induction fuel with
  | zero =>
    intro l hl a b hab
    exact absurd hl (by cases l <;> simp)
  | succ m ih =>
    intro l hl a b hab
    cases l with
    | nil =>
      rw [visitStmts_nil, visitStmts_nil]
      exact hab
    | cons s rest =>
      obtain ⟨h1, h2, h3, h4, h5, h6⟩ := hab
      have hsz : sizeOf (s :: rest) ≤ m + 1 := hl
      simp only [List.cons.sizeOf_spec] at hsz
      have hrest : sizeOf rest ≤ m := by omega
      cases s with
      | imp txt =>
        rw [visitStmts_cons_imp, visitStmts_cons_imp]
        exact ih rest hrest _ _ ⟨by rw [h1], h2, h3, h4, h5, h6⟩
      | exprCall c =>
        rw [visitStmts_cons_expr, visitStmts_cons_expr]
        exact ih rest hrest a b ⟨h1, h2, h3, h4, h5, h6⟩
      | funcDef n bd =>
        cases hc : a.currentClass with
        | none =>
          have hcb : b.currentClass = none := by rw [← h4, hc]
          rw [visitStmts_cons_funcN a hc, visitStmts_cons_funcN b hcb]
          refine ih rest hrest _ _ ⟨h1, by rw [h2], by rw [h3], h4, ?_, h6⟩
          simp only [dkeys_dinsert, h5]
        | some c =>
          have hcb : b.currentClass = some c := by rw [← h4, hc]
          rw [visitStmts_cons_funcS a c hc, visitStmts_cons_funcS b c hcb]
          exact ih rest hrest _ _ ⟨h1, h2, by rw [h3], h4, h5, h6⟩
      | classDef n bd =>
        rw [visitStmts_cons_class, visitStmts_cons_class]
        have hbd : sizeOf bd ≤ m := by
          simp only [PyStmt.classDef.sizeOf_spec] at hsz
          omega
        have hst1 : stEquiv
            { a with
              class_defs := dinsert n (.classDef n bd) a.class_defs
              method_calls := dinsert n [] a.method_calls
              currentClass := some n }
            { b with
              class_defs := dinsert n (.classDef n bd) b.class_defs
              method_calls := dinsert n [] b.method_calls
              currentClass := some n } := by
          refine ⟨h1, h2, by rw [h3], rfl, h5, ?_⟩
          simp only [dkeys_dinsert, h6]
        have hst2 := ih bd hbd _ _ hst1
        obtain ⟨g1, g2, g3, g4, g5, g6⟩ := hst2
        exact ih rest hrest _ _ ⟨g1, g2, g3, rfl, g5, g6⟩

theorem visitStmts_classKeys_mono : ∀ (fuel : Nat) (l : List PyStmt), sizeOf l ≤ fuel →
    ∀ (st : CAState) (k : String), k ∈ dkeys st.class_defs →
      k ∈ dkeys (visitStmts st l).class_defs := by
  intro fuel
  induction fuel with
  | zero =>
    intro l hl st k hk
    exact absurd hl (by cases l <;> simp)
  | succ m ih =>
    intro l hl st k hk
    cases l with
    | nil =>
      rw [visitStmts_nil]
      exact hk
    | cons s rest =>
      have hsz : sizeOf (s :: rest) ≤ m + 1 := hl
      simp only [List.cons.sizeOf_spec] at hsz
      have hrest : sizeOf rest ≤ m := by omega
      cases s with
      | imp txt =>
        rw [visitStmts_cons_imp]
        exact ih rest hrest _ k hk
      | exprCall c =>
        rw [visitStmts_cons_expr]
        exact ih rest hrest _ k hk
      | funcDef n bd =>
        cases hc : st.currentClass with
        | none =>
          rw [visitStmts_cons_funcN st hc]
          exact ih rest hrest _ k hk
        | some c =>
          rw [visitStmts_cons_funcS st c hc]
          exact ih rest hrest _ k hk
      | classDef n bd =>
        rw [visitStmts_cons_class]
        have hbd : sizeOf bd ≤ m := by
          simp only [PyStmt.classDef.sizeOf_spec] at hsz
          omega
        refine ih rest hrest _ k ?_
        have hin : k ∈ dkeys (dinsert n (PyStmt.classDef n bd) st.class_defs) :=
          mem_dkeys_dinsert n _ hk
        exact ih bd hbd _ k hin

theorem mem_walkCalls_cons (x : PyStmt) (t : List PyStmt) (y : String)
    (h : y ∈ walkCalls t) : y ∈ walkCalls (x :: t) := by
  cases x with
  | imp txt => rw [walkCalls]; exact h
  | exprCall c => rw [walkCalls]; exact List.mem_cons_of_mem _ h
  | funcDef n b => rw [walkCalls]; exact List.mem_append_right _ h
  | classDef n b => rw [walkCalls]; exact List.mem_append_right _ h

theorem stmtIn_exprCall {c : String} : ∀ {body : List PyStmt},
    StmtIn (.exprCall c) body → c ∈ walkCalls body := by
  intro body h
  induction h with
  | here t => rw [walkCalls]; exact List.mem_cons_self c _
  | there _ ih => exact mem_walkCalls_cons _ _ _ ih
  | inFunc _ ih => rw [walkCalls]; exact List.mem_append_left _ ih
  | inClass _ ih => rw [walkCalls]; exact List.mem_append_left _ ih

theorem stmtIn_trans {s : PyStmt} {m : String} {gb : List PyStmt}
    (hs : StmtIn s gb) : ∀ {body : List PyStmt},
    StmtIn (.funcDef m gb) body → StmtIn s body := by
  intro body h
  induction h with
  | here t => exact StmtIn.inFunc hs
  | there h' ih => exact StmtIn.there ih
  | inFunc h' ih => exact StmtIn.inFunc ih
  | inClass h' ih => exact StmtIn.inClass ih

theorem cc_none_class_defs (st : CAState) :
    ({ st with currentClass := none } : CAState).class_defs = st.class_defs := rfl

theorem mem_dkeys_dinsert_self {β : Type} (k : String) (v : β) (d : List (String × β)) :
    k ∈ dkeys (dinsert k v d) := by
  rw [dkeys_dinsert]
  by_cases hm : k ∈ dkeys d
  · simp only [hm, if_true]
  · simp [hm]

/-- C10 (amended): the visitor catalogs exactly the definitions not
enclosed in any function body.  (1) A definition nested in a function's
body is never cataloged: the analyzer's observable output (imports, call
lists, catalog keys) depends on a `def`'s body only through the calls
walked from it.  (2) A class nested inside another class's body *is*
cataloged (it need not be module-level).  (3)/(4) The recorded calls of a
function or method are exactly the calls walked from its whole body, and
(5) a call expression anywhere inside a nested function is therefore
attributed to the enclosing top-level function or method. -/
theorem c10_theorem :
    (∀ (st : CAState) (pre post b1 b2 : List PyStmt) (n : String),
      walkCalls b1 = walkCalls b2 →
      stEquiv (visitStmts st (pre ++ PyStmt.funcDef n b1 :: post))
        (visitStmts st (pre ++ PyStmt.funcDef n b2 :: post))) ∧
    (∀ (st : CAState) (outerName innerName : String) (pre mid post : List PyStmt),
      innerName ∈ dkeys ((visitStmts st
        [PyStmt.classDef outerName
          (pre ++ PyStmt.classDef innerName mid :: post)]).class_defs)) ∧
    (∀ (st : CAState) (n : String) (b : List PyStmt),
      st.currentClass = none →
      dlookup n (visitStmts st [PyStmt.funcDef n b]).function_calls
        = some (walkCalls b)) ∧
    (∀ (st : CAState) (c n : String) (b : List PyStmt),
      st.currentClass = some c →
      ∃ inner, dlookup c (visitStmts st [PyStmt.funcDef n b]).method_calls = some inner ∧
        dlookup n inner = some (walkCalls b)) ∧
    (∀ (body gb : List PyStmt) (m c : String),
      StmtIn (PyStmt.funcDef m gb) body → StmtIn (PyStmt.exprCall c) gb →
      c ∈ walkCalls body) := by
  refine ⟨?_, ?_, ?_, ?_, ?_⟩
  · intro st pre post b1 b2 n hw
    rw [visitStmts_append, visitStmts_append]
    cases hc : (visitStmts st pre).currentClass with
    | none =>
      rw [visitStmts_cons_funcN _ hc, visitStmts_cons_funcN _ hc]
      refine visitStmts_equiv_fuel (sizeOf post) post (le_refl _) _ _
        ⟨rfl, by rw [hw], rfl, rfl, ?_, rfl⟩
      simp only [dkeys_dinsert]
    | some c =>
      rw [visitStmts_cons_funcS _ c hc, visitStmts_cons_funcS _ c hc]
      exact visitStmts_equiv_fuel (sizeOf post) post (le_refl _) _ _
        ⟨rfl, rfl, by rw [hw], rfl, rfl, rfl⟩
  · intro st outerName innerName pre mid post
    rw [visitStmts_cons_class, visitStmts_nil, cc_none_class_defs, visitStmts_append,
      visitStmts_cons_class]
    refine visitStmts_classKeys_mono (sizeOf post) post (le_refl _) _ innerName ?_
    rw [cc_none_class_defs]
    refine visitStmts_classKeys_mono (sizeOf mid) mid (le_refl _) _ innerName ?_
    exact mem_dkeys_dinsert_self innerName _ _
  · intro st n b hc
    rw [visitStmts_cons_funcN st hc, visitStmts_nil]
    exact dlookup_dinsert_self n _ _
  · intro st c n b hc
    rw [visitStmts_cons_funcS st c hc, visitStmts_nil]
    exact ⟨_, dlookup_dinsert_self c _ _, dlookup_dinsert_self n _ _⟩
  · intro body gb m c hg hcall
    exact stmtIn_exprCall (stmtIn_trans hcall hg)

theorem c10_witness :
    stEquiv
      (visitStmts caInit
        ([] ++ PyStmt.funcDef "f" [PyStmt.exprCall "g", PyStmt.funcDef "h" []] :: []))
      (visitStmts caInit
        ([] ++ PyStmt.funcDef "f" [PyStmt.funcDef "q" [PyStmt.exprCall "g"]] :: [])) ∧
    "g" ∈ walkCalls [PyStmt.funcDef "f" [PyStmt.funcDef "h" [PyStmt.exprCall "g"]]] :=
  ⟨c10_theorem.1 caInit [] [] [PyStmt.exprCall "g", PyStmt.funcDef "h" []]
      [PyStmt.funcDef "q" [PyStmt.exprCall "g"]] "f" (by simp [walkCalls]),
    c10_theorem.2.2.2.2 [PyStmt.funcDef "f" [PyStmt.funcDef "h" [PyStmt.exprCall "g"]]]
      [PyStmt.exprCall "g"] "h" "g"
      (StmtIn.inFunc (StmtIn.here _ _)) (StmtIn.here _ _)⟩

/-- C10, counterexample to the claim as stated: `visit_ClassDef` calls
`generic_visit`, so for the module `class A:` containing `class B:` the
nested class `B` — which is *not* module-level — is cataloged in
`class_defs` alongside `A`. -/
theorem c10_counterexample :
    dkeys (analyzeModule [.classDef "A" [.classDef "B" []]]).class_defs = ["A", "B"] := by
  simp [analyzeModule, visitStmts, caInit, dinsert, dkeys]
